import Mathlib

/-!
# Quickselect (`select.c`): embedding and verification

The C file `1_Iterative_to_Recursive/select.c` implements Hoare-style selection with a
Lomuto partition step.  The functions `swap`, `partition`, `select0` and `selectt` are
embedded below as functions on `List Int` (the `int a[]` argument together with its
length).  Indices are `Int`, as in C (`i = lo - 1` may be `-1`).

* Every array access is checked against the bounds of the list.  An access outside the
  array is undefined behaviour in C; the embedding reports it as `Res.oob`.
* The `while` loop of `select0` is run with a fuel argument: every execution of the loop
  body consumes one unit, and running out yields `Res.timeout`.
* Under the preconditions of the functions all index values lie in `[-1, length]`, and
  element values are only compared and copied, so 32-bit wrap-around never occurs and
  is not modelled.
-/

namespace Select

/-! ## Results of running C code -/

/-- Outcome of a run: a value, an out-of-bounds array access, or fuel exhaustion. -/
inductive Res (α : Type) where
  | ok (v : α)
  | oob
  | timeout
  deriving DecidableEq, Repr

/-- Sequencing of two computations; failures propagate. -/
def Res.bind {α β : Type} : Res α → (α → Res β) → Res β
  | .ok v, f => f v
  | .oob, _ => .oob
  | .timeout, _ => .timeout

/-! ## Array accesses -/

/-- The read `a[i]`. -/
def rd (a : List Int) (i : Int) : Res Int :=
  if i < 0 then .oob
  else
    match a[i.toNat]? with
    | some v => .ok v
    | none => .oob

/-- The write `a[i] = v`. -/
def wr (a : List Int) (i : Int) (v : Int) : Res (List Int) :=
  if 0 ≤ i ∧ i < a.length then .ok (a.set i.toNat v) else .oob

/-! ## The program -/

/-- Embedding of `void swap(int a[], int i, int j)`:
`t = a[i]; a[i] = a[j]; a[j] = t;`. -/
def swap (a : List Int) (i j : Int) : Res (List Int) :=
  (rd a i).bind fun t =>
  (rd a j).bind fun aj =>
  (wr a i aj).bind fun a1 =>
  wr a1 j t

/-- The `for (int j = lo; j <= hi - 1; j++)` loop of `partition`, entered with the current
values of `a`, `i` and `j`; `pv` is the pivot index.  The first argument bounds the number
of executions of the body. -/
def partitionLoop (pv hi : Int) : Nat → List Int → Int → Int → Res (List Int × Int)
  | 0, a, i, j => if j ≤ hi - 1 then .timeout else .ok (a, i)
  | fuel + 1, a, i, j =>
    if j ≤ hi - 1 then
      (rd a j).bind fun aj =>
      (rd a pv).bind fun ap =>
      if aj ≤ ap then
        (swap a (i + 1) j).bind fun a1 => partitionLoop pv hi fuel a1 (i + 1) (j + 1)
      else
        partitionLoop pv hi fuel a i (j + 1)
    else .ok (a, i)

/-- Embedding of `int partition(int a[], int lo, int hi)`.  Returns the reordered array and
the partitioning index.  The `for` loop increments `j` from `lo` and assigns neither `j`
nor `hi` in its body, so `hi - lo` executions of the body always suffice. -/
def partition (a : List Int) (lo hi : Int) : Res (List Int × Int) :=
  let pv := hi
  let i := lo - 1
  (partitionLoop pv hi (hi - lo).toNat a i lo).bind fun r =>
  (swap r.1 (r.2 + 1) pv).bind fun a2 =>
  .ok (a2, r.2 + 1)

/-- The `while (k != p)` loop of `select0`, entered with the current values of `a`, `lo`,
`hi` and `p`.  Each execution of the loop body consumes one unit of fuel.  Returns the
value `a[k]` and the final array. -/
def select0Loop (k : Int) : Nat → List Int → Int → Int → Int → Res (Int × List Int)
  | 0, a, _, _, p =>
    if k ≠ p then .timeout else (rd a k).bind fun v => .ok (v, a)
  | fuel + 1, a, lo, hi, p =>
    if k ≠ p then
      let lo1 := if k ≥ p then p + 1 else lo
      let hi1 := if k ≥ p then hi else p - 1
      (partition a lo1 hi1).bind fun r => select0Loop k fuel r.1 lo1 hi1 r.2
    else (rd a k).bind fun v => .ok (v, a)

/-- Embedding of the iterative `int select0(int a[], int lo, int hi, int k)`.  Returns the
selected value and the final array. -/
def select0 (fuel : Nat) (a : List Int) (lo hi k : Int) : Res (Int × List Int) :=
  if lo ≥ hi then (rd a lo).bind fun v => .ok (v, a)
  else
    (partition a lo hi).bind fun r => select0Loop k fuel r.1 lo hi r.2

/-- Embedding of `int selectt(int a[], int n, int k)`. -/
def selectt (fuel : Nat) (a : List Int) (n k : Int) : Res (Int × List Int) :=
  select0 fuel a 0 (n - 1) k

/-- Embedding of the original tail-recursive `select0` that the source keeps in a comment
inside the function body: `if (lo >= hi) return a[lo];` and otherwise
`p = partition(a, lo, hi)`, then `return a[k]` if `k == p`, `return select0(a, lo, p - 1, k)`
if `k < p`, and `return select0(a, p + 1, hi, k)` else.  Each recursive call consumes one
unit of fuel. -/
def select0Rec (k : Int) : Nat → List Int → Int → Int → Res (Int × List Int)
  | 0, a, lo, hi =>
    if lo ≥ hi then (rd a lo).bind fun v => .ok (v, a)
    else
      (partition a lo hi).bind fun r =>
        if k = r.2 then (rd r.1 k).bind fun v => .ok (v, r.1)
        else .timeout
  | fuel + 1, a, lo, hi =>
    if lo ≥ hi then (rd a lo).bind fun v => .ok (v, a)
    else
      (partition a lo hi).bind fun r =>
        if k = r.2 then (rd r.1 k).bind fun v => .ok (v, r.1)
        else if k < r.2 then select0Rec k fuel r.1 lo (r.2 - 1)
        else select0Rec k fuel r.1 (r.2 + 1) hi

/-- The calls `partition(a, lo, hi)` made inside the `while` loop of `select0`, in order:
the array at the time of the call and the two range arguments.  The recursion follows
`select0Loop`. -/
def select0LoopCalls (k : Int) : Nat → List Int → Int → Int → Int → List (List Int × Int × Int)
  | 0, _, _, _, _ => []
  | fuel + 1, a, lo, hi, p =>
    if k ≠ p then
      let lo1 := if k ≥ p then p + 1 else lo
      let hi1 := if k ≥ p then hi else p - 1
      (a, lo1, hi1) ::
        match partition a lo1 hi1 with
        | .ok r => select0LoopCalls k fuel r.1 lo1 hi1 r.2
        | _ => []
    else []

/-- All calls `partition(a, lo, hi)` made by `select0`: the initial one followed by those
of the loop. -/
def select0Calls (fuel : Nat) (a : List Int) (lo hi k : Int) : List (List Int × Int × Int) :=
  if lo ≥ hi then []
  else
    (a, lo, hi) ::
      match partition a lo hi with
      | .ok r => select0LoopCalls k fuel r.1 lo hi r.2
      | _ => []

/-- The array indices accessed by `swap(a, i, j)`, in order: the reads of `a[i]` and `a[j]`
and the writes of `a[i]` and `a[j]`. -/
def swapAccesses (i j : Int) : List Int := [i, j, i, j]

/-- The array indices accessed by the `for` loop of `partition`, in order.  The recursion
follows `partitionLoop`: each executed body reads `a[j]` and `a[pv]` and, when the test
succeeds, performs the accesses of `swap(a, i + 1, j)`. -/
def partitionLoopAccesses (pv hi : Int) : Nat → List Int → Int → Int → List Int
  | 0, _, _, _ => []
  | fuel + 1, a, i, j =>
    if j ≤ hi - 1 then
      j :: pv ::
        match rd a j, rd a pv with
        | .ok aj, .ok ap =>
          if aj ≤ ap then
            swapAccesses (i + 1) j ++
              match swap a (i + 1) j with
              | .ok a1 => partitionLoopAccesses pv hi fuel a1 (i + 1) (j + 1)
              | _ => []
          else partitionLoopAccesses pv hi fuel a i (j + 1)
        | _, _ => []
    else []

/-- The array indices accessed by `partition(a, lo, hi)`: those of the loop followed by
those of the final `swap(a, i + 1, pv)`. -/
def partitionAccesses (a : List Int) (lo hi : Int) : List Int :=
  partitionLoopAccesses hi hi (hi - lo).toNat a (lo - 1) lo ++
    match partitionLoop hi hi (hi - lo).toNat a (lo - 1) lo with
    | .ok r => swapAccesses (r.2 + 1) hi
    | _ => []

/-- The array indices accessed by `select0(a, lo, hi, k)`: the read of `a[lo]` when
`lo >= hi`, and otherwise the accesses of every `partition` call followed by the final read
of `a[k]`. -/
def select0Accesses (fuel : Nat) (a : List Int) (lo hi k : Int) : List Int :=
  if lo ≥ hi then [lo]
  else
    ((select0Calls fuel a lo hi k).map fun c => partitionAccesses c.1 c.2.1 c.2.2).flatten ++ [k]

/-- All calls `partition(a, lo, hi)` made by `selectt(a, n, k)`. -/
def selecttCalls (fuel : Nat) (a : List Int) (n k : Int) : List (List Int × Int × Int) :=
  select0Calls fuel a 0 (n - 1) k

/-- The range of the later call is strictly shorter than the range of the earlier one. -/
def Shrinks (c d : List Int × Int × Int) : Prop := d.2.2 - d.2.1 < c.2.2 - c.2.1

/-! ## Specification vocabulary -/

/-- The element stored at index `i` (`0` outside the array). -/
def elemAt (a : List Int) (i : Int) : Int := if 0 ≤ i then a.getD i.toNat 0 else 0

/-- The segment `a[lo..hi]`, both ends included. -/
def segment (a : List Int) (lo hi : Int) : List Int :=
  (a.drop lo.toNat).take (hi + 1 - lo).toNat

/-- An ascending-sorted copy of a list. -/
def sortedCopy (l : List Int) : List Int := l.insertionSort (· ≤ ·)

/-- The number of indices `j` in `[lo, hi - 1]` whose element is `<=` the element at
index `hi`. -/
def countLe (a : List Int) (lo hi : Int) : Nat :=
  (List.range (hi - lo).toNat).countP fun (d : Nat) =>
    decide (elemAt a (lo + (d : Int)) ≤ elemAt a hi)

/-- The number of indices in `[j, j + n)` whose element is `<=` the value `v`. -/
def countLeN (a : List Int) (v : Int) (j n : Nat) : Nat :=
  (List.range' j n).countP fun x => decide (a.getD x 0 ≤ v)

/-- The pivot of a call `partition(a, lo, hi)`, the element at index `hi`, is a minimum of
the range `a[lo..hi]`. -/
def PivotIsMin (c : List Int × Int × Int) : Prop :=
  ∀ x ∈ segment c.1 c.2.1 c.2.2, elemAt c.1 c.2.2 ≤ x

/-- The pivot of a call `partition(a, lo, hi)`, the element at index `hi`, is a maximum of
the range `a[lo..hi]`. -/
def PivotIsMax (c : List Int × Int × Int) : Prop :=
  ∀ x ∈ segment c.1 c.2.1 c.2.2, x ≤ elemAt c.1 c.2.2

/-- In a list of calls the pivot is alternately a minimum and a maximum of its range; the
flag tells whether the first call has a minimum. -/
def PivotsAlternate : Bool → List (List Int × Int × Int) → Prop
  | _, [] => True
  | true, c :: cs => PivotIsMin c ∧ PivotsAlternate false cs
  | false, c :: cs => PivotIsMax c ∧ PivotsAlternate true cs

/-- Entries at the positions `lo ≤ x < y < hi` strictly decrease. -/
def DescOpen (b : List Int) (lo hi : Nat) : Prop :=
  ∀ x y, lo ≤ x → x < y → y < hi → b.getD y 0 < b.getD x 0

/-- The segment `a[lo..hi]` with natural-number bounds. -/
def segN (a : List Int) (lo hi : Nat) : List Int := (a.drop lo).take (hi + 1 - lo)

/-- The list obtained by exchanging the entries at positions `i` and `j`. -/
def swapN (a : List Int) (i j : Nat) : List Int :=
  (a.set i (a.getD j 0)).set j (a.getD i 0)


/-! ## Pure counterpart of `swap` -/

theorem length_swapN (a : List Int) (i j : Nat) : (swapN a i j).length = a.length := by
  simp [swapN]

theorem getD_swapN (a : List Int) (i j x : Nat) (hi : i < a.length) (hj : j < a.length) :
    (swapN a i j).getD x 0 =
      if x = j then a.getD i 0 else if x = i then a.getD j 0 else a.getD x 0 := by
  simp only [swapN, List.getD_eq_getElem?_getD, List.getElem?_set, List.length_set]
  by_cases h1 : x = j
  · subst h1; simp [hj]
  · by_cases h2 : x = i
    · subst h2
      have : ¬ j = x := fun h => h1 h.symm
      simp [this, hi, h1]
    · have h3 : ¬ j = x := fun h => h1 h.symm
      have h4 : ¬ i = x := fun h => h2 h.symm
      simp [h1, h2, h3, h4]

theorem swapN_perm (a : List Int) (i j : Nat) (hi : i < a.length) (hj : j < a.length) :
    (swapN a i j).Perm a := by
  obtain ⟨x, hx⟩ : ∃ x, a[i] = x := ⟨_, rfl⟩
  obtain ⟨y, hy⟩ : ∃ y, a[j] = y := ⟨_, rfl⟩
  have e1 : a.getD i 0 = x := by simp [List.getD_eq_getElem?_getD, hi, hx]
  have e2 : a.getD j 0 = y := by simp [List.getD_eq_getElem?_getD, hj, hy]
  rw [swapN, e1, e2, List.perm_iff_count]
  intro b
  have hj' : j < (a.set i y).length := by simpa using hj
  have c1 : 0 < a.count x := List.count_pos_iff.mpr (hx ▸ List.getElem_mem hi)
  have c2 : 0 < a.count y := List.count_pos_iff.mpr (hy ▸ List.getElem_mem hj)
  rw [List.count_set _ _ _ _ hj', List.count_set _ _ _ _ hi]
  simp only [List.getElem_set, hx, hy, ite_self, beq_iff_eq]
  by_cases hb : y = b
  · subst hb
    by_cases hxy : x = y
    · subst hxy; simp; omega
    · simp [hxy]
  · by_cases hxb : x = b
    · subst hxb; simp [hb]; omega
    · simp [hxb, hb]

theorem rd_ok (a : List Int) (i : Nat) (h : i < a.length) :
    rd a (i : Int) = .ok (a.getD i 0) := by
  have : ¬ ((i : Int) < 0) := by omega
  simp [rd, this, List.getD_eq_getElem?_getD, h]

theorem wr_ok (a : List Int) (i : Nat) (v : Int) (h : i < a.length) :
    wr a (i : Int) v = .ok (a.set i v) := by
  have : (0 : Int) ≤ i ∧ (i : Int) < a.length := by omega
  simp [wr, h]

theorem swap_ok (a : List Int) (i j : Nat) (hi : i < a.length) (hj : j < a.length) :
    swap a (i : Int) (j : Int) = .ok (swapN a i j) := by
  have hj' : j < (a.set i (a.getD j 0)).length := by simpa using hj
  rw [swap, rd_ok a i hi, rd_ok a j hj]
  simp only [Res.bind]
  rw [wr_ok a i _ hi]
  simp only [Res.bind]
  rw [wr_ok _ j _ hj', swapN]

/-! ## The partition loop -/

theorem partitionLoop_spec (h : Nat) (pvv : Int) :
    ∀ (fuel : Nat) (a : List Int) (m j : Nat),
      m ≤ j → j ≤ h → h < a.length → h - j ≤ fuel → a.getD h 0 = pvv →
      (∀ x, m ≤ x → x < j → pvv < a.getD x 0) →
      ∃ (a' : List Int) (m' : Nat), partitionLoop h h fuel a ((m : Int) - 1) j = .ok (a', (m' : Int) - 1) ∧
        a'.length = a.length ∧ m ≤ m' ∧ m' ≤ h ∧ a'.Perm a ∧
        (∀ x, x < m ∨ h ≤ x → a'.getD x 0 = a.getD x 0) ∧
        (∀ x, m ≤ x → x < m' → a'.getD x 0 ≤ pvv) ∧
        (∀ x, m' ≤ x → x < h → pvv < a'.getD x 0) := by
  intro fuel
  induction fuel with
  | zero =>
    intro a m j hmj hjh hlen hfuel hpv hgt
    have hj : j = h := by omega
    subst hj
    refine ⟨a, m, ?_, rfl, le_refl _, hmj, List.Perm.refl _, fun _ _ => rfl, ?_, ?_⟩
    · have : ¬ ((j : Int) ≤ (j : Int) - 1) := by omega
      simp [partitionLoop, this]
    · intro x h1 h2; omega
    · intro x h1 h2; exact hgt x h1 h2
  | succ fuel ih =>
    intro a m j hmj hjh hlen hfuel hpv hgt
    by_cases hj : j = h
    · subst hj
      refine ⟨a, m, ?_, rfl, le_refl _, hmj, List.Perm.refl _, fun _ _ => rfl, ?_, ?_⟩
      · have : ¬ ((j : Int) ≤ (j : Int) - 1) := by omega
        simp [partitionLoop, this]
      · intro x h1 h2; omega
      · intro x h1 h2; exact hgt x h1 h2
    · have hjlt : j < h := by omega
      have hguard : (j : Int) ≤ (h : Int) - 1 := by omega
      have hjlen : j < a.length := by omega
      have hmlen : m < a.length := by omega
      rw [partitionLoop, if_pos hguard, rd_ok a j hjlen, rd_ok a h hlen]
      simp only [Res.bind]
      by_cases hle : a.getD j 0 ≤ a.getD h 0
      · rw [if_pos hle]
        have e1 : (m : Int) - 1 + 1 = (m : Int) := by omega
        rw [e1, swap_ok a m j hmlen hjlen]
        simp only [Res.bind]
        have e2 : (m : Int) = ((m + 1 : Nat) : Int) - 1 := by push_cast; omega
        have e3 : (j : Int) + 1 = ((j + 1 : Nat) : Int) := by push_cast; rfl
        rw [e2, e3]
        have hg := getD_swapN a m j
        obtain ⟨a', m', hrun, hl, hm, hmh, hperm, hout, hlow, hhigh⟩ :=
          ih (swapN a m j) (m + 1) (j + 1) (by omega) (by omega)
            (by rw [length_swapN]; exact hlen) (by omega)
            (by rw [hg h hmlen hjlen, if_neg (by omega), if_neg (by omega)]; exact hpv)
            (by
              intro x hx1 hx2
              rw [hg x hmlen hjlen]
              by_cases hxj : x = j
              · rw [if_pos hxj]; exact hgt m (le_refl _) (by omega)
              · rw [if_neg hxj, if_neg (by omega)]; exact hgt x (by omega) (by omega))
        refine ⟨a', m', hrun, by rw [hl, length_swapN], by omega, hmh,
          hperm.trans (swapN_perm a m j hmlen hjlen), ?_, ?_, hhigh⟩
        · intro x hx
          rw [hout x (by omega), hg x hmlen hjlen, if_neg (by omega), if_neg (by omega)]
        · intro x hx1 hx2
          by_cases hxm : x = m
          · subst hxm
            rw [hout x (by omega), hg x hmlen hjlen]
            by_cases hxj : x = j
            · rw [if_pos hxj, ← hpv]; subst hxj; exact hle
            · rw [if_neg hxj, if_pos rfl, ← hpv]; exact hle
          · exact hlow x (by omega) hx2
      · rw [if_neg hle]
        have e3 : (j : Int) + 1 = ((j + 1 : Nat) : Int) := by push_cast; rfl
        rw [e3]
        obtain ⟨a', m', hrun, hl, hm, hmh, hperm, hout, hlow, hhigh⟩ :=
          ih a m (j + 1) (by omega) (by omega) hlen (by omega) hpv
            (by
              intro x hx1 hx2
              by_cases hxj : x = j
              · subst hxj; rw [← hpv]; omega
              · exact hgt x hx1 (by omega))
        exact ⟨a', m', hrun, hl, hm, hmh, hperm, hout, hlow, hhigh⟩

/-- Behaviour of `partition` on a valid range (indices as natural numbers). -/
theorem partition_spec (a : List Int) (lo hi : Nat) (h1 : lo ≤ hi) (h2 : hi < a.length) :
    ∃ (a' : List Int) (p : Nat), partition a lo hi = .ok (a', (p : Int)) ∧ a'.length = a.length ∧
      lo ≤ p ∧ p ≤ hi ∧ a'.Perm a ∧
      (∀ x, x < lo ∨ hi < x → a'.getD x 0 = a.getD x 0) ∧
      a'.getD p 0 = a.getD hi 0 ∧
      (∀ x, lo ≤ x → x < p → a'.getD x 0 ≤ a'.getD p 0) ∧
      (∀ x, p < x → x ≤ hi → a'.getD p 0 < a'.getD x 0) := by
  obtain ⟨a1, m, hrun, hl, hm, hmh, hperm, hout, hlow, hhigh⟩ :=
    partitionLoop_spec hi (a.getD hi 0) (hi - lo) a lo lo (le_refl _) h1 h2 (le_refl _) rfl
      (by intro x hx1 hx2; omega)
  have hfuel : ((hi : Int) - (lo : Int)).toNat = hi - lo := by omega
  have hmlen : m < a1.length := by omega
  have hhlen : hi < a1.length := by omega
  have hg := getD_swapN a1 m hi
  have hpiv : (swapN a1 m hi).getD m 0 = a.getD hi 0 := by
    rw [hg m hmlen hhlen]
    by_cases hmhi : m = hi
    · rw [if_pos hmhi]; subst hmhi; exact hout m (Or.inr (le_refl _))
    · rw [if_neg hmhi, if_pos rfl]; exact hout hi (Or.inr (le_refl _))
  refine ⟨swapN a1 m hi, m, ?_, by rw [length_swapN, hl], hm, hmh,
    (swapN_perm a1 m hi hmlen hhlen).trans hperm, ?_, hpiv, ?_, ?_⟩
  · rw [partition]
    show Res.bind (partitionLoop (hi : Int) (hi : Int) ((hi : Int) - (lo : Int)).toNat a ((lo : Int) - 1) (lo : Int)) _ = _
    rw [hfuel, hrun]
    simp only [Res.bind]
    have e1 : (m : Int) - 1 + 1 = (m : Int) := by omega
    rw [e1, swap_ok a1 m hi hmlen hhlen]
  · intro x hx
    rw [hg x hmlen hhlen, if_neg (by omega), if_neg (by omega)]
    exact hout x (by omega)
  · intro x hx1 hx2
    rw [hpiv, hg x hmlen hhlen, if_neg (by omega), if_neg (by omega)]
    exact hlow x hx1 hx2
  · intro x hx1 hx2
    rw [hpiv, hg x hmlen hhlen]
    by_cases hxh : x = hi
    · rw [if_pos hxh]; exact hhigh m (le_refl _) (by omega)
    · rw [if_neg hxh, if_neg (by omega)]; exact hhigh x (by omega) (by omega)

/-! ## Segments -/

theorem segment_eq_segN (a : List Int) (lo hi : Nat) :
    segment a (lo : Int) (hi : Int) = segN a lo hi := by
  have e : ((hi : Int) + 1 - (lo : Int)).toNat = hi + 1 - lo := by omega
  simp [segment, segN, e]

theorem getElem?_segN (a : List Int) (lo hi n : Nat) :
    (segN a lo hi)[n]? = if n < hi + 1 - lo then a[lo + n]? else none := by
  simp [segN, List.getElem?_take, List.getElem?_drop]

theorem length_segN (a : List Int) (lo hi : Nat) (h2 : hi < a.length) :
    (segN a lo hi).length = hi + 1 - lo := by
  simp [segN]; omega

theorem getD_segN (a : List Int) (lo hi n : Nat) (h : lo + n ≤ hi) :
    (segN a lo hi).getD n 0 = a.getD (lo + n) 0 := by
  simp only [List.getD_eq_getElem?_getD, getElem?_segN]
  rw [if_pos (by omega)]

theorem getElem?_eq_of_getD (a a' : List Int) (x : Nat) (hl : a'.length = a.length)
    (h : a'.getD x 0 = a.getD x 0) : a'[x]? = a[x]? := by
  by_cases hx : x < a.length
  · have hx' : x < a'.length := by omega
    simp only [List.getD_eq_getElem?_getD, List.getElem?_eq_getElem hx,
      List.getElem?_eq_getElem hx', Option.getD_some] at h
    simp [List.getElem?_eq_getElem hx, List.getElem?_eq_getElem hx', h]
  · have hx' : ¬ x < a'.length := by omega
    simp [List.getElem?_eq_none, Nat.le_of_not_lt hx, Nat.le_of_not_lt hx']

theorem split_segN (a : List Int) (lo hi : Nat) (h1 : lo ≤ hi + 1) :
    a = a.take lo ++ (segN a lo hi ++ a.drop (hi + 1)) := by
  have e : a.drop (hi + 1) = (a.drop lo).drop (hi + 1 - lo) := by
    rw [List.drop_drop]; congr 1; omega
  rw [segN, e, List.take_append_drop, List.take_append_drop]

/-- A permutation that fixes every position outside `[lo, hi]` permutes the segment. -/
theorem segN_perm (a a' : List Int) (lo hi : Nat) (h1 : lo ≤ hi + 1)
    (hl : a'.length = a.length) (hp : a'.Perm a)
    (hout : ∀ x, x < lo ∨ hi < x → a'.getD x 0 = a.getD x 0) :
    (segN a' lo hi).Perm (segN a lo hi) := by
  have ht : a'.take lo = a.take lo := by
    apply List.ext_getElem?
    intro n
    simp only [List.getElem?_take]
    by_cases hn : n < lo
    · rw [if_pos hn, if_pos hn]
      exact getElem?_eq_of_getD a a' n hl (hout n (Or.inl hn))
    · rw [if_neg hn, if_neg hn]
  have hd : a'.drop (hi + 1) = a.drop (hi + 1) := by
    apply List.ext_getElem?
    intro n
    simp only [List.getElem?_drop]
    exact getElem?_eq_of_getD a a' _ hl (hout _ (Or.inr (by omega)))
  have e1 := split_segN a lo hi h1
  have e2 := split_segN a' lo hi h1
  rw [ht, hd] at e2
  rw [e1] at hp
  rw [e2] at hp
  exact (List.perm_append_right_iff _).mp ((List.perm_append_left_iff _).mp hp)

theorem mem_segN (a : List Int) (lo hi : Nat) (v : Int) :
    v ∈ segN a lo hi ↔ ∃ z, lo ≤ z ∧ z ≤ hi ∧ a[z]? = some v := by
  rw [List.mem_iff_getElem?]
  constructor
  · rintro ⟨n, hn⟩
    rw [getElem?_segN] at hn
    by_cases h : n < hi + 1 - lo
    · rw [if_pos h] at hn
      exact ⟨lo + n, by omega, by omega, hn⟩
    · rw [if_neg h] at hn; cases hn
  · rintro ⟨z, hz1, hz2, hz⟩
    refine ⟨z - lo, ?_⟩
    rw [getElem?_segN, if_pos (by omega)]
    have : lo + (z - lo) = z := by omega
    rw [this]; exact hz

/-- Under a permutation fixing the outside of `[lo, hi]`, every value found in the range
afterwards was in the range before. -/
theorem range_value_of_perm (a a' : List Int) (lo hi : Nat) (h2 : hi < a.length)
    (hl : a'.length = a.length) (hp : a'.Perm a)
    (hout : ∀ x, x < lo ∨ hi < x → a'.getD x 0 = a.getD x 0) :
    ∀ y, lo ≤ y → y ≤ hi → ∃ z, lo ≤ z ∧ z ≤ hi ∧ a'.getD y 0 = a.getD z 0 := by
  intro y hy1 hy2
  have hy : y < a'.length := by omega
  have hmem : a'.getD y 0 ∈ segN a' lo hi := by
    rw [mem_segN]
    exact ⟨y, hy1, hy2, by simp [List.getD_eq_getElem?_getD, List.getElem?_eq_getElem hy]⟩
  have hmem2 := (segN_perm a a' lo hi (by omega) hl hp hout).mem_iff.mp hmem
  rw [mem_segN] at hmem2
  obtain ⟨z, hz1, hz2, hz⟩ := hmem2
  exact ⟨z, hz1, hz2, by simp [List.getD_eq_getElem?_getD, hz]⟩

/-! ## The selection loop -/

theorem select0Loop_done (k : Nat) (fuel : Nat) (a : List Int) (lo hi : Int)
    (hk : k < a.length) :
    select0Loop k fuel a lo hi k = .ok (a.getD k 0, a) := by
  cases fuel <;> simp [select0Loop, rd_ok a k hk, Res.bind]

theorem select0Loop_spec (k : Nat) :
    ∀ (fuel : Nat) (a : List Int) (lo hi p : Nat),
      lo ≤ k → k ≤ hi → hi < a.length → lo ≤ p → p ≤ hi → hi - lo ≤ fuel →
      (∀ x, lo ≤ x → x < p → a.getD x 0 ≤ a.getD p 0) →
      (∀ x, p < x → x ≤ hi → a.getD p 0 ≤ a.getD x 0) →
      ∃ a' : List Int, select0Loop k fuel a lo hi p = .ok (a'.getD k 0, a') ∧
        a'.length = a.length ∧ a'.Perm a ∧
        (∀ x, x < lo ∨ hi < x → a'.getD x 0 = a.getD x 0) ∧
        (∀ x, lo ≤ x → x < k → a'.getD x 0 ≤ a'.getD k 0) ∧
        (∀ x, k < x → x ≤ hi → a'.getD k 0 ≤ a'.getD x 0) := by
  intro fuel
  induction fuel with
  | zero =>
    intro a lo hi p h1 h2 h3 h4 h5 h6 hlow hhigh
    have hp : p = k := by omega
    subst hp
    exact ⟨a, select0Loop_done p 0 a lo hi (by omega), rfl, List.Perm.refl _,
      fun _ _ => rfl, hlow, hhigh⟩
  | succ fuel ih =>
    intro a lo hi p h1 h2 h3 h4 h5 h6 hlow hhigh
    by_cases hp : p = k
    · subst hp
      exact ⟨a, select0Loop_done p _ a lo hi (by omega), rfl, List.Perm.refl _,
        fun _ _ => rfl, hlow, hhigh⟩
    · have hne : (k : Int) ≠ (p : Int) := by omega
      rw [select0Loop, if_pos hne]
      by_cases hkp : p < k
      · have hge : (k : Int) ≥ (p : Int) := by omega
        simp only [if_pos hge]
        have e : (p : Int) + 1 = ((p + 1 : Nat) : Int) := by push_cast; rfl
        rw [e]
        obtain ⟨a1, p1, hrun, hl1, hp1a, hp1b, hperm1, hout1, -, hlow1, hhigh1⟩ :=
          partition_spec a (p + 1) hi (by omega) h3
        rw [hrun]
        simp only [Res.bind]
        obtain ⟨a', hrun', hl', hperm', hout', hlow', hhigh'⟩ :=
          ih a1 (p + 1) hi p1 (by omega) h2 (by omega) hp1a hp1b (by omega) hlow1
            (fun x hx1 hx2 => le_of_lt (hhigh1 x hx1 hx2))
        have hout2 : ∀ x, x < p + 1 ∨ hi < x → a'.getD x 0 = a.getD x 0 := by
          intro x hx; rw [hout' x hx, hout1 x hx]
        have hl2 : a'.length = a.length := by rw [hl', hl1]
        have hperm2 : a'.Perm a := hperm'.trans hperm1
        refine ⟨a', hrun', hl2, hperm2, fun x hx => hout2 x (by omega), ?_, hhigh'⟩
        intro x hx1 hx2
        by_cases hxp : p + 1 ≤ x
        · exact hlow' x hxp hx2
        · obtain ⟨z, hz1, hz2, hz⟩ :=
            range_value_of_perm a a' (p + 1) hi h3 hl2 hperm2 hout2 k (by omega) h2
          rw [hz, hout2 x (by omega)]
          have hpz := hhigh z (by omega) hz2
          by_cases hxeq : x = p
          · subst hxeq; exact hpz
          · exact le_trans (hlow x hx1 (by omega)) hpz
      · have hge : ¬ ((k : Int) ≥ (p : Int)) := by omega
        simp only [if_neg hge]
        have e : (p : Int) - 1 = ((p - 1 : Nat) : Int) := by omega
        rw [e]
        obtain ⟨a1, p1, hrun, hl1, hp1a, hp1b, hperm1, hout1, -, hlow1, hhigh1⟩ :=
          partition_spec a lo (p - 1) (by omega) (by omega)
        rw [hrun]
        simp only [Res.bind]
        obtain ⟨a', hrun', hl', hperm', hout', hlow', hhigh'⟩ :=
          ih a1 lo (p - 1) p1 h1 (by omega) (by omega) hp1a hp1b (by omega) hlow1
            (fun x hx1 hx2 => le_of_lt (hhigh1 x hx1 hx2))
        have hout2 : ∀ x, x < lo ∨ p - 1 < x → a'.getD x 0 = a.getD x 0 := by
          intro x hx; rw [hout' x hx, hout1 x hx]
        have hl2 : a'.length = a.length := by rw [hl', hl1]
        have hperm2 : a'.Perm a := hperm'.trans hperm1
        refine ⟨a', hrun', hl2, hperm2, fun x hx => hout2 x (by omega), hlow', ?_⟩
        intro x hx1 hx2
        by_cases hxp : x ≤ p - 1
        · exact hhigh' x hx1 hxp
        · obtain ⟨z, hz1, hz2, hz⟩ :=
            range_value_of_perm a a' lo (p - 1) (by omega) hl2 hperm2 hout2 k h1 (by omega)
          rw [hz, hout2 x (by omega)]
          have hpz := hlow z hz1 (by omega)
          by_cases hxeq : x = p
          · subst hxeq; exact hpz
          · exact le_trans hpz (hhigh x (by omega) hx2)

/-- Behaviour of `select0` on a valid range and rank (indices as natural numbers). -/
theorem select0_spec (fuel : Nat) (a : List Int) (lo hi k : Nat)
    (h1 : lo ≤ k) (h2 : k ≤ hi) (h3 : hi < a.length) (hf : hi - lo ≤ fuel) :
    ∃ a' : List Int, select0 fuel a lo hi k = .ok (a'.getD k 0, a') ∧
      a'.length = a.length ∧ a'.Perm a ∧
      (∀ x, x < lo ∨ hi < x → a'.getD x 0 = a.getD x 0) ∧
      (∀ x, lo ≤ x → x < k → a'.getD x 0 ≤ a'.getD k 0) ∧
      (∀ x, k < x → x ≤ hi → a'.getD k 0 ≤ a'.getD x 0) := by
  by_cases hlh : lo = hi
  · subst hlh
    have hk : k = lo := by omega
    subst hk
    refine ⟨a, ?_, rfl, List.Perm.refl _, fun _ _ => rfl, ?_, ?_⟩
    · simp [select0, rd_ok a k h3, Res.bind]
    · intro x hx1 hx2; omega
    · intro x hx1 hx2; omega
  · have hlt : ¬ ((lo : Int) ≥ (hi : Int)) := by omega
    rw [select0, if_neg hlt]
    obtain ⟨a1, p1, hrun, hl1, hp1a, hp1b, hperm1, hout1, -, hlow1, hhigh1⟩ :=
      partition_spec a lo hi (by omega) h3
    rw [hrun]
    simp only [Res.bind]
    obtain ⟨a', hrun', hl', hperm', hout', hlow', hhigh'⟩ :=
      select0Loop_spec k fuel a1 lo hi p1 h1 h2 (by omega) hp1a hp1b hf hlow1
        (fun x hx1 hx2 => le_of_lt (hhigh1 x hx1 hx2))
    exact ⟨a', hrun', by rw [hl', hl1], hperm'.trans hperm1,
      fun x hx => by rw [hout' x hx, hout1 x hx], hlow', hhigh'⟩

/-! ## Order statistics -/

theorem sortedCopy_perm (l : List Int) : (sortedCopy l).Perm l :=
  List.perm_insertionSort _ l

theorem sortedCopy_sorted (l : List Int) : (sortedCopy l).Sorted (· ≤ ·) :=
  List.sorted_insertionSort _ l

theorem sortedCopy_congr {l l' : List Int} (h : l'.Perm l) : sortedCopy l' = sortedCopy l :=
  List.eq_of_perm_of_sorted
    (((sortedCopy_perm l').trans h).trans (sortedCopy_perm l).symm)
    (sortedCopy_sorted l') (sortedCopy_sorted l)

/-- A list that is split at position `m` into smaller-or-equal entries on the left and
larger-or-equal entries on the right holds, at position `m`, the entry that any sorted
permutation of it holds there. -/
theorem getD_sorted_of_split (l s : List Int) (m : Nat) (hm : m < l.length)
    (hlow : ∀ x, x < m → l.getD x 0 ≤ l.getD m 0)
    (hhigh : ∀ x, m < x → x < l.length → l.getD m 0 ≤ l.getD x 0)
    (hp : s.Perm l) (hs : s.Sorted (· ≤ ·)) : s.getD m 0 = l.getD m 0 := by
  have hv : l.getD m 0 = l[m] := by
    simp [List.getD_eq_getElem?_getD, List.getElem?_eq_getElem hm]
  have hsplit : l = l.take m ++ l[m] :: l.drop (m + 1) := by
    rw [← List.drop_eq_getElem_cons hm, List.take_append_drop]
  let t : List Int := sortedCopy (l.take m) ++ l[m] :: sortedCopy (l.drop (m + 1))
  have htperm : t.Perm l := by
    have h1 : t.Perm (l.take m ++ l[m] :: l.drop (m + 1)) :=
      List.Perm.append (sortedCopy_perm _) (List.Perm.cons _ (sortedCopy_perm _))
    rw [← hsplit] at h1
    exact h1
  have hleft : ∀ u ∈ sortedCopy (l.take m), u ≤ l[m] := by
    intro u hu
    have hu' : u ∈ l.take m := (sortedCopy_perm _).mem_iff.mp hu
    obtain ⟨n, hn⟩ := List.mem_iff_getElem?.mp hu'
    rw [List.getElem?_take] at hn
    by_cases hnm : n < m
    · rw [if_pos hnm] at hn
      have := hlow n hnm
      rw [hv] at this
      simpa [List.getD_eq_getElem?_getD, hn] using this
    · rw [if_neg hnm] at hn; cases hn
  have hright : ∀ u ∈ sortedCopy (l.drop (m + 1)), l[m] ≤ u := by
    intro u hu
    have hu' : u ∈ l.drop (m + 1) := (sortedCopy_perm _).mem_iff.mp hu
    obtain ⟨n, hn⟩ := List.mem_iff_getElem?.mp hu'
    rw [List.getElem?_drop] at hn
    have hlen : m + 1 + n < l.length := by
      by_contra hc
      rw [List.getElem?_eq_none (by omega)] at hn
      cases hn
    have := hhigh (m + 1 + n) (by omega) hlen
    rw [hv] at this
    simpa [List.getD_eq_getElem?_getD, hn] using this
  have htsorted : t.Sorted (· ≤ ·) := by
    show List.Pairwise (· ≤ ·) t
    refine List.pairwise_append.mpr ⟨sortedCopy_sorted _, ?_, ?_⟩
    · exact List.pairwise_cons.mpr ⟨hright, sortedCopy_sorted _⟩
    · intro u hu w hw
      rcases List.mem_cons.mp hw with hw | hw
      · rw [hw]; exact hleft u hu
      · exact le_trans (hleft u hu) (hright w hw)
  have hst : s = t := List.eq_of_perm_of_sorted (hp.trans htperm.symm) hs htsorted
  have hlenL : (sortedCopy (l.take m)).length = m := by
    rw [(sortedCopy_perm _).length_eq, List.length_take]; omega
  rw [hst, hv, List.getD_eq_getElem?_getD,
    List.getElem?_append_right (le_of_eq hlenL), hlenL]
  simp

/-! ## Index conversions -/

theorem elemAt_nat (a : List Int) (x : Nat) : elemAt a (x : Int) = a.getD x 0 := by
  simp [elemAt]

theorem segN_full (a : List Int) : segN a 0 (a.length - 1) = a := by
  cases a with
  | nil => simp [segN]
  | cons x xs => simp [segN]

/-- On a valid range `select0` returns the entry that a sorted copy of the segment holds at
offset `k - lo` (indices as natural numbers). -/
theorem select0_sorted_nat (fuel : Nat) (a : List Int) (lo hi k : Nat)
    (h1 : lo ≤ k) (h2 : k ≤ hi) (h3 : hi < a.length) (hf : hi - lo ≤ fuel) :
    ∃ a' : List Int,
      select0 fuel a lo hi k = .ok ((sortedCopy (segN a lo hi)).getD (k - lo) 0, a') ∧
      a'.Perm a := by
  obtain ⟨a', hrun, hl, hperm, hout, hlow, hhigh⟩ := select0_spec fuel a lo hi k h1 h2 h3 hf
  have hseg : (segN a' lo hi).Perm (segN a lo hi) := segN_perm a a' lo hi (by omega) hl hperm hout
  have hlen : (segN a' lo hi).length = hi + 1 - lo := length_segN a' lo hi (by omega)
  have hk : lo + (k - lo) = k := by omega
  have key : (sortedCopy (segN a lo hi)).getD (k - lo) 0 = (segN a' lo hi).getD (k - lo) 0 := by
    apply getD_sorted_of_split (segN a' lo hi) (sortedCopy (segN a lo hi)) (k - lo)
    · omega
    · intro x hx
      rw [getD_segN a' lo hi x (by omega), getD_segN a' lo hi (k - lo) (by omega), hk]
      exact hlow (lo + x) (by omega) (by omega)
    · intro x hx1 hx2
      rw [getD_segN a' lo hi x (by omega), getD_segN a' lo hi (k - lo) (by omega), hk]
      exact hhigh (lo + x) (by omega) (by omega)
    · exact (sortedCopy_perm _).trans hseg.symm
    · exact sortedCopy_sorted _
  rw [getD_segN a' lo hi (k - lo) (by omega), hk] at key
  exact ⟨a', by rw [key]; exact hrun, hperm⟩

/-! ## Claims about `partition` -/

/-- C3: for `0 <= lo <= hi < length(a)`, `partition(a, lo, hi)` returns an index `p` such
that in the resulting array every index `i` with `lo <= i < p` holds a value `<= a[p]` and
every index `i` with `p < i <= hi` holds a value `>= a[p]`. -/
theorem partition_orders_range (a : List Int) (lo hi : Int)
    (h0 : 0 ≤ lo) (h1 : lo ≤ hi) (h2 : hi < a.length) :
    ∃ (a' : List Int) (p : Int), partition a lo hi = .ok (a', p) ∧ a'.length = a.length ∧
      (∀ i : Int, lo ≤ i → i < p → elemAt a' i ≤ elemAt a' p) ∧
      (∀ i : Int, p < i → i ≤ hi → elemAt a' p ≤ elemAt a' i) := by
  lift lo to Nat using h0
  lift hi to Nat using (by omega)
  obtain ⟨a', p, hrun, hl, hp1, hp2, -, -, -, hlow, hhigh⟩ :=
    partition_spec a lo hi (by omega) (by omega)
  refine ⟨a', p, hrun, hl, ?_, ?_⟩
  · intro i hi1 hi2
    lift i to Nat using (by omega)
    rw [elemAt_nat, elemAt_nat]
    exact hlow i (by omega) (by omega)
  · intro i hi1 hi2
    lift i to Nat using (by omega)
    rw [elemAt_nat, elemAt_nat]
    exact le_of_lt (hhigh i (by omega) (by omega))

/-- Instance of the ordering property of `partition` on the range `[1, 5]` of a seven-element array. -/
theorem partition_orders_range_witness :
    ∃ (a' : List Int) (p : Int), partition [60, 40, 30, 10, 50, 20, 70] 1 5 = .ok (a', p) ∧
      a'.length = ([60, 40, 30, 10, 50, 20, 70] : List Int).length ∧
      (∀ i : Int, 1 ≤ i → i < p → elemAt a' i ≤ elemAt a' p) ∧
      (∀ i : Int, p < i → i ≤ 5 → elemAt a' p ≤ elemAt a' i) :=
  partition_orders_range [60, 40, 30, 10, 50, 20, 70] 1 5 (by decide) (by decide) (by decide)

/-- C4: for `0 <= lo <= hi < length(a)`, `partition(a, lo, hi)` returns an index `p` with
`lo <= p <= hi`, and the element at `p` in the resulting array is the element that was at
index `hi` before the call. -/
theorem partition_places_pivot (a : List Int) (lo hi : Int)
    (h0 : 0 ≤ lo) (h1 : lo ≤ hi) (h2 : hi < a.length) :
    ∃ (a' : List Int) (p : Int), partition a lo hi = .ok (a', p) ∧ a'.length = a.length ∧
      lo ≤ p ∧ p ≤ hi ∧ elemAt a' p = elemAt a hi := by
  lift lo to Nat using h0
  lift hi to Nat using (by omega)
  obtain ⟨a', p, hrun, hl, hp1, hp2, -, -, hpiv, -, -⟩ :=
    partition_spec a lo hi (by omega) (by omega)
  exact ⟨a', p, hrun, hl, by omega, by omega, by rw [elemAt_nat, elemAt_nat]; exact hpiv⟩

/-- Instance of the pivot placement of `partition` on the range `[1, 5]` of a seven-element array. -/
theorem partition_places_pivot_witness :
    ∃ (a' : List Int) (p : Int), partition [60, 40, 30, 10, 50, 20, 70] 1 5 = .ok (a', p) ∧
      a'.length = ([60, 40, 30, 10, 50, 20, 70] : List Int).length ∧
      1 ≤ p ∧ p ≤ 5 ∧ elemAt a' p = elemAt [60, 40, 30, 10, 50, 20, 70] 5 :=
  partition_places_pivot [60, 40, 30, 10, 50, 20, 70] 1 5 (by decide) (by decide) (by decide)

/-- C5: for `0 <= lo <= hi < length(a)`, after `p = partition(a, lo, hi)` every element at
an index `i` with `p < i <= hi` is strictly greater than the pivot `a[p]`; equivalently,
every element of the range other than the pivot itself whose value is `<=` the pivot
value lies at an index `< p`. -/
theorem partition_right_strict (a : List Int) (lo hi : Int)
    (h0 : 0 ≤ lo) (h1 : lo ≤ hi) (h2 : hi < a.length) :
    ∃ (a' : List Int) (p : Int), partition a lo hi = .ok (a', p) ∧ a'.length = a.length ∧
      (∀ i : Int, p < i → i ≤ hi → elemAt a' p < elemAt a' i) ∧
      (∀ i : Int, lo ≤ i → i ≤ hi → i ≠ p → elemAt a' i ≤ elemAt a' p → i < p) := by
  lift lo to Nat using h0
  lift hi to Nat using (by omega)
  obtain ⟨a', p, hrun, hl, hp1, hp2, -, -, -, -, hhigh⟩ :=
    partition_spec a lo hi (by omega) (by omega)
  refine ⟨a', p, hrun, hl, ?_, ?_⟩
  · intro i hi1 hi2
    lift i to Nat using (by omega)
    rw [elemAt_nat, elemAt_nat]
    exact hhigh i (by omega) (by omega)
  · intro i hi1 hi2 hne hle
    lift i to Nat using (by omega)
    rw [elemAt_nat, elemAt_nat] at hle
    by_contra hc
    have := hhigh i (by omega) (by omega)
    omega

/-- Instance of the strict right side of `partition` on an array holding the pivot value three times. -/
theorem partition_right_strict_witness :
    ∃ (a' : List Int) (p : Int), partition [20, 50, 20, 70, 20] 0 4 = .ok (a', p) ∧
      a'.length = ([20, 50, 20, 70, 20] : List Int).length ∧
      (∀ i : Int, p < i → i ≤ 4 → elemAt a' p < elemAt a' i) ∧
      (∀ i : Int, 0 ≤ i → i ≤ 4 → i ≠ p → elemAt a' i ≤ elemAt a' p → i < p) :=
  partition_right_strict [20, 50, 20, 70, 20] 0 4 (by decide) (by decide) (by decide)

/-- C6: for `0 <= lo <= hi < length(a)`, `partition(a, lo, hi)` only rearranges the range:
the segment `a[lo..hi]` after the call is a permutation of the segment before the call,
and every element at an index `< lo` or `> hi` is unchanged. -/
theorem partition_frame (a : List Int) (lo hi : Int)
    (h0 : 0 ≤ lo) (h1 : lo ≤ hi) (h2 : hi < a.length) :
    ∃ (a' : List Int) (p : Int), partition a lo hi = .ok (a', p) ∧ a'.length = a.length ∧
      (segment a' lo hi).Perm (segment a lo hi) ∧
      (∀ i : Int, i < lo ∨ hi < i → elemAt a' i = elemAt a i) := by
  lift lo to Nat using h0
  lift hi to Nat using (by omega)
  obtain ⟨a', p, hrun, hl, hp1, hp2, hperm, hout, -, -, -⟩ :=
    partition_spec a lo hi (by omega) (by omega)
  refine ⟨a', p, hrun, hl, ?_, ?_⟩
  · rw [segment_eq_segN, segment_eq_segN]
    exact segN_perm a a' lo hi (by omega) hl hperm hout
  · intro i hi1
    by_cases hneg : 0 ≤ i
    · lift i to Nat using hneg
      rw [elemAt_nat, elemAt_nat]
      exact hout i (by omega)
    · simp [elemAt, hneg]

/-- Instance of the frame property of `partition` on the range `[1, 5]` of a seven-element array. -/
theorem partition_frame_witness :
    ∃ (a' : List Int) (p : Int), partition [60, 40, 30, 10, 50, 20, 70] 1 5 = .ok (a', p) ∧
      a'.length = ([60, 40, 30, 10, 50, 20, 70] : List Int).length ∧
      (segment a' 1 5).Perm (segment [60, 40, 30, 10, 50, 20, 70] 1 5) ∧
      (∀ i : Int, i < 1 ∨ 5 < i → elemAt a' i = elemAt [60, 40, 30, 10, 50, 20, 70] i) :=
  partition_frame [60, 40, 30, 10, 50, 20, 70] 1 5 (by decide) (by decide) (by decide)

/-! ## Claims about `select0` and `selectt` -/

theorem select0LoopCalls_chain (k : Nat) :
    ∀ (fuel : Nat) (a b : List Int) (lo hi p : Nat),
      lo ≤ k → k ≤ hi → hi < a.length → lo ≤ p → p ≤ hi →
      List.Chain Shrinks (b, (lo : Int), (hi : Int)) (select0LoopCalls k fuel a lo hi p) := by
  intro fuel
  induction fuel with
  | zero =>
    intro a b lo hi p _ _ _ _ _
    simp [select0LoopCalls]
  | succ fuel ih =>
    intro a b lo hi p h1 h2 h3 h4 h5
    rw [select0LoopCalls]
    by_cases hp : p = k
    · subst hp; simp
    · have hne : (k : Int) ≠ (p : Int) := by omega
      rw [if_pos hne]
      by_cases hkp : p < k
      · have hge : (k : Int) ≥ (p : Int) := by omega
        simp only [if_pos hge]
        have e : (p : Int) + 1 = ((p + 1 : Nat) : Int) := by push_cast; rfl
        rw [e]
        obtain ⟨a1, p1, hrun, hl1, hp1a, hp1b, -⟩ := partition_spec a (p + 1) hi (by omega) h3
        rw [hrun]
        refine List.Chain.cons ?_ (ih a1 a (p + 1) hi p1 (by omega) h2 (by omega) hp1a hp1b)
        simp only [Shrinks]; omega
      · have hge : ¬ ((k : Int) ≥ (p : Int)) := by omega
        simp only [if_neg hge]
        have e : (p : Int) - 1 = ((p - 1 : Nat) : Int) := by omega
        rw [e]
        obtain ⟨a1, p1, hrun, hl1, hp1a, hp1b, -⟩ :=
          partition_spec a lo (p - 1) (by omega) (by omega)
        rw [hrun]
        refine List.Chain.cons ?_ (ih a1 a lo (p - 1) p1 h1 (by omega) (by omega) hp1a hp1b)
        simp only [Shrinks]; omega

/-- C1: for `0 <= lo <= k <= hi < length(a)`, `select0(a, lo, hi, k)` returns the element
found at offset `k - lo` of an ascending-sorted copy of `a[lo..hi]`; in particular, called
on the whole array (`lo = 0`, `hi = n - 1`), `selectt(a, n, k)` returns the element at
position `k` of the sorted copy of `a`. -/
theorem select0_returns_order_statistic (fuel : Nat) (a : List Int) (lo hi k : Int)
    (h0 : 0 ≤ lo) (h1 : lo ≤ k) (h2 : k ≤ hi) (h3 : hi < a.length)
    (hf : (hi - lo).toNat ≤ fuel) :
    (∃ a' : List Int,
      select0 fuel a lo hi k = .ok (elemAt (sortedCopy (segment a lo hi)) (k - lo), a')) ∧
    (lo = 0 → hi = (a.length : Int) - 1 →
      ∃ a' : List Int, selectt fuel a a.length k = .ok (elemAt (sortedCopy a) k, a')) := by
  lift lo to Nat using h0
  lift k to Nat using (by omega)
  lift hi to Nat using (by omega)
  have hfn : hi - lo ≤ fuel := by omega
  obtain ⟨a', hrun, -⟩ := select0_sorted_nat fuel a lo hi k (by omega) (by omega) (by omega) hfn
  have e : (k : Int) - (lo : Int) = ((k - lo : Nat) : Int) := by omega
  have main : select0 fuel a lo hi k =
      .ok (elemAt (sortedCopy (segment a lo hi)) ((k : Int) - (lo : Int)), a') := by
    rw [segment_eq_segN, e, elemAt_nat]; exact hrun
  refine ⟨⟨a', main⟩, ?_⟩
  intro hlo hhi
  have hlo' : lo = 0 := by omega
  have hhi' : hi = a.length - 1 := by omega
  subst hlo'
  refine ⟨a', ?_⟩
  rw [Nat.cast_zero] at hrun
  rw [selectt, ← hhi, hrun, hhi', segN_full, elemAt_nat]
  rfl

/-- Instance of the order-statistic property on the array of the test `array7`, where the selected value is `40`. -/
theorem select0_returns_order_statistic_witness :
    ((0 : Int) ≤ 0 ∧ (0 : Int) ≤ 3 ∧ (3 : Int) ≤ 6 ∧
      (6 : Int) < ([60, 40, 30, 10, 50, 20, 70] : List Int).length ∧
      ((6 : Int) - 0).toNat ≤ 6) ∧
    elemAt (sortedCopy [60, 40, 30, 10, 50, 20, 70]) 3 = 40 ∧
    selectt 6 [60, 40, 30, 10, 50, 20, 70] 7 3 = .ok (40, [10, 20, 30, 40, 50, 60, 70]) ∧
    ((∃ a' : List Int, select0 6 [60, 40, 30, 10, 50, 20, 70] 0 6 3 =
        .ok (elemAt (sortedCopy (segment [60, 40, 30, 10, 50, 20, 70] 0 6)) (3 - 0), a')) ∧
      ((0 : Int) = 0 → (6 : Int) = (([60, 40, 30, 10, 50, 20, 70] : List Int).length : Int) - 1 →
        ∃ a' : List Int,
          selectt 6 [60, 40, 30, 10, 50, 20, 70]
              (([60, 40, 30, 10, 50, 20, 70] : List Int).length : Int) 3 =
            .ok (elemAt (sortedCopy [60, 40, 30, 10, 50, 20, 70]) 3, a'))) :=
  ⟨⟨by decide, by decide, by decide, by decide, by decide⟩, by decide, by decide,
    select0_returns_order_statistic 6 [60, 40, 30, 10, 50, 20, 70] 0 6 3
      (by decide) (by decide) (by decide) (by decide) (by decide)⟩

/-- C2: for an array `a` of length `n >= 1` and a rank `0 <= k < n`, the array after
`selectt(a, n, k)` is a permutation of the array before the call: every value occurs the
same number of times before and after. -/
theorem selectt_permutes (fuel : Nat) (a : List Int) (n k : Int)
    (hn : n = a.length) (h1 : 1 ≤ n) (h0 : 0 ≤ k) (hk : k < n) (hf : (n - 1).toNat ≤ fuel) :
    ∃ (v : Int) (a' : List Int), selectt fuel a n k = .ok (v, a') ∧
      a'.Perm a ∧ ∀ x : Int, a'.count x = a.count x := by
  lift k to Nat using h0
  subst hn
  have e : (a.length : Int) - 1 = ((a.length - 1 : Nat) : Int) := by omega
  obtain ⟨a', hrun, -, hperm, -⟩ :=
    select0_spec fuel a 0 (a.length - 1) k (by omega) (by omega) (by omega) (by omega)
  refine ⟨a'.getD k 0, a', ?_, hperm, fun x => hperm.count_eq x⟩
  rw [selectt, e]; exact hrun

/-- Instance of the permutation property on the array of the test `array7`. -/
theorem selectt_permutes_witness :
    ((7 : Int) = ([60, 40, 30, 10, 50, 20, 70] : List Int).length ∧ (1 : Int) ≤ 7 ∧
      (0 : Int) ≤ 3 ∧ (3 : Int) < 7 ∧ ((7 : Int) - 1).toNat ≤ 6) ∧
    ∃ (v : Int) (a' : List Int), selectt 6 [60, 40, 30, 10, 50, 20, 70] 7 3 = .ok (v, a') ∧
      a'.Perm [60, 40, 30, 10, 50, 20, 70] ∧
      ∀ x : Int, a'.count x = ([60, 40, 30, 10, 50, 20, 70] : List Int).count x :=
  ⟨⟨by decide, by decide, by decide, by decide, by decide⟩,
    selectt_permutes 6 [60, 40, 30, 10, 50, 20, 70] 7 3
      (by decide) (by decide) (by decide) (by decide) (by decide)⟩

/-- C7: for an array `a` of length `n >= 1` and a rank `0 <= k < n`, `selectt(a, n, k)`
returns the element at index `k` of the reordered array, every element at an index `< k`
is `<=` it and every element at an index `> k` is `>=` it, over the whole array. -/
theorem selectt_partitions_around_rank (fuel : Nat) (a : List Int) (n k : Int)
    (hn : n = a.length) (h1 : 1 ≤ n) (h0 : 0 ≤ k) (hk : k < n) (hf : (n - 1).toNat ≤ fuel) :
    ∃ (v : Int) (a' : List Int), selectt fuel a n k = .ok (v, a') ∧
      a'.length = a.length ∧ v = elemAt a' k ∧
      (∀ i : Int, 0 ≤ i → i < k → elemAt a' i ≤ elemAt a' k) ∧
      (∀ i : Int, k < i → i < n → elemAt a' k ≤ elemAt a' i) := by
  lift k to Nat using h0
  subst hn
  have e : (a.length : Int) - 1 = ((a.length - 1 : Nat) : Int) := by omega
  obtain ⟨a', hrun, hl, -, -, hlow, hhigh⟩ :=
    select0_spec fuel a 0 (a.length - 1) k (by omega) (by omega) (by omega) (by omega)
  refine ⟨a'.getD k 0, a', ?_, hl, (elemAt_nat a' k).symm, ?_, ?_⟩
  · rw [selectt, e]; exact hrun
  · intro i hi1 hi2
    lift i to Nat using hi1
    rw [elemAt_nat, elemAt_nat]
    exact hlow i (by omega) (by omega)
  · intro i hi1 hi2
    lift i to Nat using (by omega)
    rw [elemAt_nat, elemAt_nat]
    exact hhigh i (by omega) (by omega)

/-- Instance of the whole-array split on the array of the test `array6` with rank `2`. -/
theorem selectt_partitions_around_rank_witness :
    ((6 : Int) = ([10, 90, 80, 30, 70, 50] : List Int).length ∧ (1 : Int) ≤ 6 ∧
      (0 : Int) ≤ 2 ∧ (2 : Int) < 6 ∧ ((6 : Int) - 1).toNat ≤ 5) ∧
    ∃ (v : Int) (a' : List Int), selectt 5 [10, 90, 80, 30, 70, 50] 6 2 = .ok (v, a') ∧
      a'.length = ([10, 90, 80, 30, 70, 50] : List Int).length ∧ v = elemAt a' 2 ∧
      (∀ i : Int, 0 ≤ i → i < 2 → elemAt a' i ≤ elemAt a' 2) ∧
      (∀ i : Int, 2 < i → i < 6 → elemAt a' 2 ≤ elemAt a' i) :=
  ⟨⟨by decide, by decide, by decide, by decide, by decide⟩,
    selectt_partitions_around_rank 5 [10, 90, 80, 30, 70, 50] 6 2
      (by decide) (by decide) (by decide) (by decide) (by decide)⟩

/-! ## Calls outside the precondition -/

theorem rd_oob_length (a : List Int) : rd a (a.length : Int) = .oob := by
  have h : ¬ ((a.length : Int) < 0) := by omega
  simp [rd, h]

theorem rd_oob_neg (a : List Int) : rd a (-1) = .oob := by
  simp [rd]

/-- A call `partition(a, n, n - 1)` with `n = length(a)` reads `a[n]`. -/
theorem partition_oob_high (a : List Int) :
    partition a (a.length : Int) ((a.length : Int) - 1) = .oob := by
  have e : ((a.length : Int) - 1 - (a.length : Int)).toNat = 0 := by omega
  have g : ¬ ((a.length : Int) ≤ (a.length : Int) - 1 - 1) := by omega
  have s : (a.length : Int) - 1 + 1 = (a.length : Int) := by omega
  simp only [partition, e, partitionLoop, if_neg g, Res.bind, s, swap, rd_oob_length]

/-- A call `partition(a, 0, -1)` reads `a[-1]` (or `a[0]` of an empty array). -/
theorem partition_oob_low (a : List Int) : partition a 0 (-1) = .oob := by
  have e : ((-1 : Int) - 0).toNat = 0 := by decide
  have g : ¬ ((0 : Int) ≤ -1 - 1) := by decide
  have s : (0 : Int) - 1 + 1 = 0 := by decide
  simp only [partition, e, partitionLoop, if_neg g, Res.bind, s, swap, rd_oob_neg]
  cases a with
  | nil => rfl
  | cons x xs => simp [rd]

theorem select0Loop_oob_high (k : Int) (n : Nat) (hk : (n : Int) ≤ k) :
    ∀ (fuel : Nat) (a : List Int) (lo p : Nat),
      a.length = n → lo ≤ p → p + 1 ≤ n → n - lo ≤ fuel →
      select0Loop k fuel a lo ((n : Int) - 1) p = .oob := by
  intro fuel
  induction fuel with
  | zero => intro a lo p hn h1 h2 h3; omega
  | succ fuel ih =>
    intro a lo p hn h1 h2 h3
    have hne : k ≠ (p : Int) := by omega
    have hge : k ≥ (p : Int) := by omega
    rw [select0Loop, if_pos hne]
    simp only [if_pos hge]
    by_cases hp : p + 1 = n
    · have e : (p : Int) + 1 = (a.length : Int) := by omega
      have e2 : (n : Int) - 1 = (a.length : Int) - 1 := by omega
      rw [e, e2, partition_oob_high]
      rfl
    · have e : (p : Int) + 1 = ((p + 1 : Nat) : Int) := by push_cast; rfl
      have e2 : (n : Int) - 1 = ((n - 1 : Nat) : Int) := by omega
      obtain ⟨a1, p1, hrun, hl1, hp1a, hp1b, -⟩ :=
        partition_spec a (p + 1) (n - 1) (by omega) (by omega)
      rw [e, e2, hrun]
      simp only [Res.bind]
      rw [← e2]
      exact ih a1 (p + 1) p1 (by omega) hp1a (by omega) (by omega)

theorem select0Loop_oob_low (k : Int) (hk : k < 0) :
    ∀ (fuel : Nat) (a : List Int) (hi p : Nat),
      hi < a.length → p ≤ hi → hi + 1 ≤ fuel →
      select0Loop k fuel a 0 hi p = .oob := by
  intro fuel
  induction fuel with
  | zero => intro a hi p h1 h2 h3; omega
  | succ fuel ih =>
    intro a hi p h1 h2 h3
    have hne : k ≠ (p : Int) := by omega
    have hge : ¬ (k ≥ (p : Int)) := by omega
    rw [select0Loop, if_pos hne]
    simp only [if_neg hge]
    by_cases hp : p = 0
    · subst hp
      have e : ((0 : Nat) : Int) - 1 = -1 := by decide
      rw [e, partition_oob_low]
      rfl
    · have e : (p : Int) - 1 = ((p - 1 : Nat) : Int) := by omega
      obtain ⟨a1, p1, hrun, hl1, hp1a, hp1b, -⟩ :=
        partition_spec a 0 (p - 1) (by omega) (by omega)
      rw [e]
      have hrun' : partition a 0 ((p - 1 : Nat) : Int) = .ok (a1, (p1 : Int)) := hrun
      rw [hrun']
      simp only [Res.bind]
      exact ih a1 (p - 1) p1 (by omega) hp1b (by omega)

/-- C8 (counterexample): called on the one-element array `[10]` with the out-of-range rank
`5`, `selectt` returns the value `10` and signals nothing; called on the empty array it
reads `a[0]`, which lies outside the array. -/
theorem selectt_does_not_fail_fast :
    selectt 0 [10] 1 5 = .ok (10, [10]) ∧ selectt 0 [] 0 0 = .oob := by
  decide

/-- C8 (amended): for an empty array or a rank outside `[0, n - 1]` the code makes no check
and signals no error: on a one-element array it returns `a[0]` and leaves the array as it
is, and in every other case it performs an array access outside the array. -/
theorem selectt_unchecked (fuel : Nat) (a : List Int) (n k : Int)
    (hn : n = a.length) (hbad : n = 0 ∨ k < 0 ∨ n ≤ k) (hf : a.length ≤ fuel) :
    selectt fuel a n k = if n = 1 then .ok (elemAt a 0, a) else .oob := by
  subst hn
  by_cases h0 : a.length = 0
  · have ha : a = [] := List.length_eq_zero.mp h0
    subst ha
    simp [selectt, select0, rd, Res.bind]
  · by_cases h1 : a.length = 1
    · have hlen : 0 < a.length := by omega
      have e : ((a.length : Int) = 1) := by omega
      have hr := rd_ok a 0 hlen
      rw [Nat.cast_zero] at hr
      rw [if_pos e, e, selectt, select0, if_pos (by decide), hr]
      simp [Res.bind, elemAt]
    · have e : ¬ ((a.length : Int) = 1) := by omega
      have hlt : ¬ ((0 : Int) ≥ (a.length : Int) - 1) := by omega
      rw [if_neg e, selectt, select0, if_neg hlt]
      obtain ⟨a1, p1, hrun, hl1, hp1a, hp1b, -⟩ :=
        partition_spec a 0 (a.length - 1) (by omega) (by omega)
      have e2 : (a.length : Int) - 1 = ((a.length - 1 : Nat) : Int) := by omega
      have hrun' : partition a 0 ((a.length : Int) - 1) = .ok (a1, (p1 : Int)) := by
        rw [e2]; exact hrun
      rw [hrun']
      simp only [Res.bind]
      rcases hbad with hb | hb | hb
      · omega
      · have := select0Loop_oob_low k hb fuel a1 (a.length - 1) p1 (by omega) hp1b (by omega)
        rw [e2]; exact this
      · exact select0Loop_oob_high k a.length hb fuel a1 0 p1 hl1 (by omega) (by omega)
          (by omega)

/-- Instance of the unchecked behaviour: rank `5` on the one-element array `[10]`. -/
theorem selectt_unchecked_witness :
    ((1 : Int) = ([10] : List Int).length ∧ ((1 : Int) = 0 ∨ (5 : Int) < 0 ∨ (1 : Int) ≤ 5) ∧
      ([10] : List Int).length ≤ 1) ∧
    selectt 1 [10] 1 5 = (if (1 : Int) = 1 then .ok (elemAt [10] 0, [10]) else .oob) :=
  ⟨⟨by decide, by decide, by decide⟩,
    selectt_unchecked 1 [10] 1 5 (by decide) (by decide) (by decide)⟩

/-- C9: for `0 <= lo <= k <= hi < length(a)`, `select0(a, lo, hi, k)` terminates with a
result after at most `hi - lo + 1` executions of the body of its `while` loop, and the
range handed to `partition` strictly shrinks from each call to the next. -/
theorem select0_terminates (fuel : Nat) (a : List Int) (lo hi k : Int)
    (h0 : 0 ≤ lo) (h1 : lo ≤ k) (h2 : k ≤ hi) (h3 : hi < a.length)
    (hf : (hi - lo + 1).toNat ≤ fuel) :
    (∃ (v : Int) (a' : List Int), select0 fuel a lo hi k = .ok (v, a')) ∧
      List.Chain' Shrinks (select0Calls fuel a lo hi k) := by
  lift lo to Nat using h0
  lift k to Nat using (by omega)
  lift hi to Nat using (by omega)
  obtain ⟨a', hrun, -⟩ :=
    select0_spec fuel a lo hi k (by omega) (by omega) (by omega) (by omega)
  refine ⟨⟨_, a', hrun⟩, ?_⟩
  rw [select0Calls]
  by_cases hlh : (lo : Int) ≥ (hi : Int)
  · rw [if_pos hlh]; exact List.chain'_nil
  · rw [if_neg hlh]
    obtain ⟨a1, p1, hrun1, hl1, hp1a, hp1b, -⟩ := partition_spec a lo hi (by omega) (by omega)
    rw [hrun1]
    exact select0LoopCalls_chain k fuel a1 a lo hi p1 (by omega) (by omega) (by omega) hp1a hp1b

/-- Instance of termination on the sorted array of the test `array10` with rank `0`. -/
theorem select0_terminates_witness :
    ((0 : Int) ≤ 0 ∧ (0 : Int) ≤ 0 ∧ (0 : Int) ≤ 9 ∧
      (9 : Int) < ([10, 20, 30, 40, 50, 60, 70, 80, 90, 100] : List Int).length ∧
      ((9 : Int) - 0 + 1).toNat ≤ 10) ∧
    ((∃ (v : Int) (a' : List Int),
        select0 10 [10, 20, 30, 40, 50, 60, 70, 80, 90, 100] 0 9 0 = .ok (v, a')) ∧
      List.Chain' Shrinks (select0Calls 10 [10, 20, 30, 40, 50, 60, 70, 80, 90, 100] 0 9 0)) :=
  ⟨⟨by decide, by decide, by decide, by decide, by decide⟩,
    select0_terminates 10 [10, 20, 30, 40, 50, 60, 70, 80, 90, 100] 0 9 0
      (by decide) (by decide) (by decide) (by decide) (by decide)⟩

/-- C10: for an array `a` of length `n >= 1` and a rank `0 <= k < n`, a second call
`selectt(a, n, k)` on the array as reordered by a first call returns the same value as the
first call. -/
theorem selectt_idempotent (fuel : Nat) (a : List Int) (n k : Int)
    (hn : n = a.length) (h1 : 1 ≤ n) (h0 : 0 ≤ k) (hk : k < n) (hf : (n - 1).toNat ≤ fuel) :
    ∃ (v : Int) (a' b : List Int),
      selectt fuel a n k = .ok (v, a') ∧ selectt fuel a' n k = .ok (v, b) := by
  lift k to Nat using h0
  subst hn
  have e : (a.length : Int) - 1 = ((a.length - 1 : Nat) : Int) := by omega
  obtain ⟨a', hrun, hperm⟩ :=
    select0_sorted_nat fuel a 0 (a.length - 1) k (by omega) (by omega) (by omega) (by omega)
  have hl : a'.length = a.length := hperm.length_eq
  obtain ⟨b, hrun', -⟩ :=
    select0_sorted_nat fuel a' 0 (a'.length - 1) k (by omega) (by omega) (by omega) (by omega)
  rw [segN_full] at hrun hrun'
  rw [sortedCopy_congr hperm, hl] at hrun'
  refine ⟨(sortedCopy a).getD (k - 0) 0, a', b, ?_, ?_⟩
  · rw [selectt, e]; exact hrun
  · rw [selectt, e]; exact hrun'

/-- Instance of the repeated call on the array of the test `array3`. -/
theorem selectt_idempotent_witness :
    ((3 : Int) = ([30, 10, 20] : List Int).length ∧ (1 : Int) ≤ 3 ∧
      (0 : Int) ≤ 1 ∧ (1 : Int) < 3 ∧ ((3 : Int) - 1).toNat ≤ 2) ∧
    ∃ (v : Int) (a' b : List Int),
      selectt 2 [30, 10, 20] 3 1 = .ok (v, a') ∧ selectt 2 a' 3 1 = .ok (v, b) :=
  ⟨⟨by decide, by decide, by decide, by decide, by decide⟩,
    selectt_idempotent 2 [30, 10, 20] 3 1
      (by decide) (by decide) (by decide) (by decide) (by decide)⟩

/-! ## Extreme ranks, the one-element range and the frame of `select0` -/

theorem getD_mem (l : List Int) (x : Nat) (h : x < l.length) : l.getD x 0 ∈ l := by
  rw [List.getD_eq_getElem?_getD, List.getElem?_eq_getElem h]
  exact List.getElem_mem h

theorem exists_getD_of_mem (l : List Int) (y : Int) (h : y ∈ l) :
    ∃ x, x < l.length ∧ l.getD x 0 = y := by
  obtain ⟨x, hx, hxy⟩ := List.getElem_of_mem h
  exact ⟨x, hx, by rw [List.getD_eq_getElem?_getD, List.getElem?_eq_getElem hx]; exact hxy⟩

/-- C11: for an array `a` of length `n >= 1`, `selectt(a, n, 0)` returns the minimum of
`a`: the result is an element of `a` and is `<=` every element of `a`. -/
theorem selectt_rank_zero_minimum (fuel : Nat) (a : List Int) (n : Int)
    (hn : n = a.length) (h1 : 1 ≤ n) (hf : (n - 1).toNat ≤ fuel) :
    ∃ (v : Int) (a' : List Int), selectt fuel a n 0 = .ok (v, a') ∧
      v ∈ a ∧ ∀ y ∈ a, v ≤ y := by
  subst hn
  have e : (a.length : Int) - 1 = ((a.length - 1 : Nat) : Int) := by omega
  obtain ⟨a', hrun, hl, hperm, -, -, hhigh⟩ :=
    select0_spec fuel a 0 (a.length - 1) 0 (le_refl _) (by omega) (by omega) (by omega)
  refine ⟨a'.getD 0 0, a', ?_, ?_, ?_⟩
  · rw [selectt, e]; exact hrun
  · exact hperm.mem_iff.mp (getD_mem a' 0 (by omega))
  · intro y hy
    obtain ⟨x, hx, hxy⟩ := exists_getD_of_mem a' y (hperm.mem_iff.mpr hy)
    by_cases hx0 : x = 0
    · subst hx0; rw [hxy]
    · rw [← hxy]; exact hhigh x (by omega) (by omega)

/-- Instance of the minimum property on the sorted array of the test `array10`, where the
selected value is `10`. -/
theorem selectt_rank_zero_minimum_witness :
    ((10 : Int) = ([10, 20, 30, 40, 50, 60, 70, 80, 90, 100] : List Int).length ∧
      (1 : Int) ≤ 10 ∧ ((10 : Int) - 1).toNat ≤ 9) ∧
    selectt 9 [10, 20, 30, 40, 50, 60, 70, 80, 90, 100] 10 0 =
      .ok (10, [10, 20, 30, 40, 50, 60, 70, 80, 90, 100]) ∧
    ∃ (v : Int) (a' : List Int),
      selectt 9 [10, 20, 30, 40, 50, 60, 70, 80, 90, 100] 10 0 = .ok (v, a') ∧
      v ∈ ([10, 20, 30, 40, 50, 60, 70, 80, 90, 100] : List Int) ∧
      ∀ y ∈ ([10, 20, 30, 40, 50, 60, 70, 80, 90, 100] : List Int), v ≤ y :=
  ⟨⟨by decide, by decide, by decide⟩, by decide,
    selectt_rank_zero_minimum 9 [10, 20, 30, 40, 50, 60, 70, 80, 90, 100] 10
      (by decide) (by decide) (by decide)⟩

/-- C12: for an array `a` of length `n >= 1`, `selectt(a, n, n - 1)` returns the maximum
of `a`: the result is an element of `a` and is `>=` every element of `a`. -/
theorem selectt_last_rank_maximum (fuel : Nat) (a : List Int) (n : Int)
    (hn : n = a.length) (h1 : 1 ≤ n) (hf : (n - 1).toNat ≤ fuel) :
    ∃ (v : Int) (a' : List Int), selectt fuel a n (n - 1) = .ok (v, a') ∧
      v ∈ a ∧ ∀ y ∈ a, y ≤ v := by
  subst hn
  have e : (a.length : Int) - 1 = ((a.length - 1 : Nat) : Int) := by omega
  obtain ⟨a', hrun, hl, hperm, -, hlow, -⟩ :=
    select0_spec fuel a 0 (a.length - 1) (a.length - 1) (by omega) (le_refl _) (by omega)
      (by omega)
  refine ⟨a'.getD (a.length - 1) 0, a', ?_, ?_, ?_⟩
  · rw [selectt, e]; exact hrun
  · exact hperm.mem_iff.mp (getD_mem a' (a.length - 1) (by omega))
  · intro y hy
    obtain ⟨x, hx, hxy⟩ := exists_getD_of_mem a' y (hperm.mem_iff.mpr hy)
    by_cases hx0 : x = a.length - 1
    · subst hx0; rw [hxy]
    · rw [← hxy]; exact hlow x (by omega) (by omega)

/-- Instances of the maximum property on the arrays of the tests `array6` and `array9`,
where the selected value is `90`. -/
theorem selectt_last_rank_maximum_witness :
    ((6 : Int) = ([10, 90, 80, 30, 70, 50] : List Int).length ∧
      (1 : Int) ≤ 6 ∧ ((6 : Int) - 1).toNat ≤ 5) ∧
    selectt 5 [10, 90, 80, 30, 70, 50] 6 5 = .ok (90, [10, 30, 50, 70, 80, 90]) ∧
    selectt 8 [90, 80, 70, 60, 50, 40, 30, 20, 10] 9 8 =
      .ok (90, [10, 80, 70, 60, 50, 40, 30, 20, 90]) ∧
    ∃ (v : Int) (a' : List Int),
      selectt 5 [10, 90, 80, 30, 70, 50] 6 (6 - 1) = .ok (v, a') ∧
      v ∈ ([10, 90, 80, 30, 70, 50] : List Int) ∧
      ∀ y ∈ ([10, 90, 80, 30, 70, 50] : List Int), y ≤ v :=
  ⟨⟨by decide, by decide, by decide⟩, by decide, by decide,
    selectt_last_rank_maximum 5 [10, 90, 80, 30, 70, 50] 6
      (by decide) (by decide) (by decide)⟩

/-- C13: for a valid index `lo` and `lo = hi = k`, `select0(a, lo, hi, k)` returns `a[lo]`,
makes no call of `partition` and leaves the array unchanged; in particular `selectt` on a
one-element array with `k = 0` returns that element. -/
theorem select0_single_element (fuel : Nat) (a : List Int) (lo hi k : Int)
    (h0 : 0 ≤ lo) (h1 : lo < a.length) (hhi : hi = lo) (hk : k = lo) :
    select0 fuel a lo hi k = .ok (elemAt a lo, a) ∧
      select0Calls fuel a lo hi k = [] ∧
      (lo = 0 → a.length = 1 → selectt fuel a a.length k = .ok (elemAt a 0, a)) := by
  subst hhi hk
  lift k to Nat using h0
  have hr := rd_ok a k (by omega)
  have main : select0 fuel a k k k = .ok (elemAt a k, a) := by
    rw [select0, if_pos (le_refl _), hr, elemAt_nat]; rfl
  refine ⟨main, ?_, ?_⟩
  · rw [select0Calls, if_pos (le_refl _)]
  · intro hk0 hlen
    have e : ((a.length : Int) - 1) = (k : Int) := by omega
    rw [selectt, e, ← hk0]
    exact main

/-- Instance of the one-element case: the test `array1`, where the selected value is
`10`. -/
theorem select0_single_element_witness :
    ((0 : Int) ≤ 0 ∧ (0 : Int) < ([10] : List Int).length ∧ (0 : Int) = 0 ∧ (0 : Int) = 0) ∧
    selectt 0 [10] 1 0 = .ok (10, [10]) ∧
    (select0 0 [10] 0 0 0 = .ok (elemAt [10] 0, [10]) ∧
      select0Calls 0 [10] 0 0 0 = [] ∧
      ((0 : Int) = 0 → ([10] : List Int).length = 1 →
        selectt 0 [10] (([10] : List Int).length : Int) 0 = .ok (elemAt [10] 0, [10]))) :=
  ⟨⟨by decide, by decide, by decide, by decide⟩, by decide,
    select0_single_element 0 [10] 0 0 0 (by decide) (by decide) (by decide) (by decide)⟩

/-- C20: for `0 <= lo <= k <= hi < length(a)`, `select0(a, lo, hi, k)` leaves every element
at an index `< lo` or `> hi` unchanged, and the segment `a[lo..hi]` after the call is a
permutation of that segment before the call. -/
theorem select0_frame (fuel : Nat) (a : List Int) (lo hi k : Int)
    (h0 : 0 ≤ lo) (h1 : lo ≤ k) (h2 : k ≤ hi) (h3 : hi < a.length)
    (hf : (hi - lo).toNat ≤ fuel) :
    ∃ (v : Int) (a' : List Int), select0 fuel a lo hi k = .ok (v, a') ∧
      a'.length = a.length ∧
      (∀ i : Int, i < lo ∨ hi < i → elemAt a' i = elemAt a i) ∧
      (segment a' lo hi).Perm (segment a lo hi) := by
  lift lo to Nat using h0
  lift k to Nat using (by omega)
  lift hi to Nat using (by omega)
  obtain ⟨a', hrun, hl, hperm, hout, -, -⟩ :=
    select0_spec fuel a lo hi k (by omega) (by omega) (by omega) (by omega)
  refine ⟨a'.getD k 0, a', hrun, hl, ?_, ?_⟩
  · intro i hi1
    by_cases hneg : 0 ≤ i
    · lift i to Nat using hneg
      rw [elemAt_nat, elemAt_nat]
      exact hout i (by omega)
    · simp [elemAt, hneg]
  · rw [segment_eq_segN, segment_eq_segN]
    exact segN_perm a a' lo hi (by omega) hl hperm hout

/-- Instance of the frame property of `select0` on the range `[1, 5]` of a seven-element
array with rank `3`. -/
theorem select0_frame_witness :
    ((0 : Int) ≤ 1 ∧ (1 : Int) ≤ 3 ∧ (3 : Int) ≤ 5 ∧
      (5 : Int) < ([60, 40, 30, 10, 50, 20, 70] : List Int).length ∧
      ((5 : Int) - 1).toNat ≤ 4) ∧
    ∃ (v : Int) (a' : List Int), select0 4 [60, 40, 30, 10, 50, 20, 70] 1 5 3 = .ok (v, a') ∧
      a'.length = ([60, 40, 30, 10, 50, 20, 70] : List Int).length ∧
      (∀ i : Int, i < 1 ∨ 5 < i → elemAt a' i = elemAt [60, 40, 30, 10, 50, 20, 70] i) ∧
      (segment a' 1 5).Perm (segment [60, 40, 30, 10, 50, 20, 70] 1 5) :=
  ⟨⟨by decide, by decide, by decide, by decide, by decide⟩,
    select0_frame 4 [60, 40, 30, 10, 50, 20, 70] 1 5 3
      (by decide) (by decide) (by decide) (by decide) (by decide)⟩

/-! ## The ranges of the `partition` calls -/

theorem select0LoopCalls_bounds (k : Nat) :
    ∀ (fuel : Nat) (a : List Int) (lo hi p : Nat),
      lo ≤ k → k ≤ hi → hi < a.length → lo ≤ p → p ≤ hi →
      ∀ c ∈ select0LoopCalls k fuel a lo hi p,
        (lo : Int) ≤ c.2.1 ∧ c.2.1 ≤ (k : Int) ∧ (k : Int) ≤ c.2.2 ∧ c.2.2 ≤ (hi : Int) ∧
          c.1.length = a.length := by
  intro fuel
  induction fuel with
  | zero =>
    intro a lo hi p _ _ _ _ _ c hc
    simp [select0LoopCalls] at hc
  | succ fuel ih =>
    intro a lo hi p h1 h2 h3 h4 h5 c hc
    rw [select0LoopCalls] at hc
    by_cases hp : p = k
    · subst hp; simp at hc
    · have hne : (k : Int) ≠ (p : Int) := by omega
      rw [if_pos hne] at hc
      by_cases hkp : p < k
      · have hge : (k : Int) ≥ (p : Int) := by omega
        simp only [if_pos hge] at hc
        have e : (p : Int) + 1 = ((p + 1 : Nat) : Int) := by push_cast; rfl
        rw [e] at hc
        obtain ⟨a1, p1, hrun, hl1, hp1a, hp1b, -⟩ := partition_spec a (p + 1) hi (by omega) h3
        rw [hrun] at hc
        rcases List.mem_cons.mp hc with hc | hc
        · subst hc
          exact ⟨by simp only; omega, by simp only; omega, by simp only; omega,
            by simp only; omega, rfl⟩
        · obtain ⟨c1, c2, c3, c4, c5⟩ :=
            ih a1 (p + 1) hi p1 (by omega) h2 (by omega) hp1a hp1b c hc
          exact ⟨by omega, c2, c3, c4, by rw [c5, hl1]⟩
      · have hge : ¬ ((k : Int) ≥ (p : Int)) := by omega
        simp only [if_neg hge] at hc
        have e : (p : Int) - 1 = ((p - 1 : Nat) : Int) := by omega
        rw [e] at hc
        obtain ⟨a1, p1, hrun, hl1, hp1a, hp1b, -⟩ :=
          partition_spec a lo (p - 1) (by omega) (by omega)
        rw [hrun] at hc
        rcases List.mem_cons.mp hc with hc | hc
        · subst hc
          exact ⟨by simp only; omega, by simp only; omega, by simp only; omega,
            by simp only; omega, rfl⟩
        · obtain ⟨c1, c2, c3, c4, c5⟩ :=
            ih a1 lo (p - 1) p1 h1 (by omega) (by omega) hp1a hp1b c hc
          exact ⟨c1, c2, c3, by omega, by rw [c5, hl1]⟩

theorem select0Calls_bounds (fuel : Nat) (a : List Int) (lo hi k : Nat)
    (h1 : lo ≤ k) (h2 : k ≤ hi) (h3 : hi < a.length) :
    ∀ c ∈ select0Calls fuel a lo hi k,
      (lo : Int) ≤ c.2.1 ∧ c.2.1 ≤ (k : Int) ∧ (k : Int) ≤ c.2.2 ∧ c.2.2 ≤ (hi : Int) ∧
        c.1.length = a.length := by
  intro c hc
  rw [select0Calls] at hc
  by_cases hlh : (lo : Int) ≥ (hi : Int)
  · rw [if_pos hlh] at hc; cases hc
  · rw [if_neg hlh] at hc
    obtain ⟨a1, p1, hrun, hl1, hp1a, hp1b, -⟩ := partition_spec a lo hi (by omega) h3
    rw [hrun] at hc
    rcases List.mem_cons.mp hc with hc | hc
    · subst hc
      exact ⟨by simp only; omega, by simp only; omega, by simp only; omega,
        by simp only; omega, rfl⟩
    · obtain ⟨c1, c2, c3, c4, c5⟩ :=
        select0LoopCalls_bounds k fuel a1 lo hi p1 h1 h2 (by omega) hp1a hp1b c hc
      exact ⟨c1, c2, c3, c4, by rw [c5, hl1]⟩

/-- C14: for `0 <= lo0 <= k <= hi0 < length(a)`, every call `partition(a, lo, hi)` made
during `select0(a, lo0, hi0, k)`, the initial one and each one inside the loop, has
`lo0 <= lo <= k <= hi <= hi0`; hence `partition` is never called with `lo > hi`.  When
`lo0 < hi0` the first call is the one on `(lo0, hi0)`. -/
theorem select0_calls_keep_rank (fuel : Nat) (a : List Int) (lo0 hi0 k : Int)
    (h0 : 0 ≤ lo0) (h1 : lo0 ≤ k) (h2 : k ≤ hi0) (h3 : hi0 < a.length) :
    (∀ c ∈ select0Calls fuel a lo0 hi0 k,
      lo0 ≤ c.2.1 ∧ c.2.1 ≤ k ∧ k ≤ c.2.2 ∧ c.2.2 ≤ hi0 ∧ c.2.1 ≤ c.2.2) ∧
    (lo0 < hi0 → (select0Calls fuel a lo0 hi0 k).head? = some (a, lo0, hi0)) := by
  lift lo0 to Nat using h0
  lift k to Nat using (by omega)
  lift hi0 to Nat using (by omega)
  constructor
  · intro c hc
    obtain ⟨c1, c2, c3, c4, -⟩ :=
      select0Calls_bounds fuel a lo0 hi0 k (by omega) (by omega) (by omega) c hc
    exact ⟨c1, c2, c3, c4, le_trans c2 c3⟩
  · intro hlt
    have hlh : ¬ ((lo0 : Int) ≥ (hi0 : Int)) := by omega
    rw [select0Calls, if_neg hlh]
    rfl

/-- Instance of the range invariant on the array of the test `array7` with rank `3`. -/
theorem select0_calls_keep_rank_witness :
    ((0 : Int) ≤ 0 ∧ (0 : Int) ≤ 3 ∧ (3 : Int) ≤ 6 ∧
      (6 : Int) < ([60, 40, 30, 10, 50, 20, 70] : List Int).length) ∧
    (select0Calls 6 [60, 40, 30, 10, 50, 20, 70] 0 6 3).map (fun c => c.2) =
      [(0, 6), (0, 5), (2, 5)] ∧
    ((∀ c ∈ select0Calls 6 [60, 40, 30, 10, 50, 20, 70] 0 6 3,
      (0 : Int) ≤ c.2.1 ∧ c.2.1 ≤ 3 ∧ (3 : Int) ≤ c.2.2 ∧ c.2.2 ≤ 6 ∧ c.2.1 ≤ c.2.2) ∧
    ((0 : Int) < 6 → (select0Calls 6 [60, 40, 30, 10, 50, 20, 70] 0 6 3).head? =
      some ([60, 40, 30, 10, 50, 20, 70], 0, 6))) :=
  ⟨⟨by decide, by decide, by decide, by decide⟩, by decide,
    select0_calls_keep_rank 6 [60, 40, 30, 10, 50, 20, 70] 0 6 3
      (by decide) (by decide) (by decide) (by decide)⟩

/-! ## The returned index as a count -/

theorem countLeN_zero (a : List Int) (v : Int) (j : Nat) : countLeN a v j 0 = 0 := by
  simp [countLeN]

theorem countLeN_succ (a : List Int) (v : Int) (j n : Nat) :
    countLeN a v j (n + 1) = countLeN a v (j + 1) n + if a.getD j 0 ≤ v then 1 else 0 := by
  simp [countLeN, List.range'_succ, List.countP_cons]

theorem countLeN_congr (a b : List Int) (v : Int) (j n : Nat)
    (h : ∀ x, j ≤ x → x < j + n → b.getD x 0 = a.getD x 0) :
    countLeN b v j n = countLeN a v j n := by
  unfold countLeN
  apply List.countP_congr
  intro x hx
  rw [List.mem_range'_1] at hx
  rw [h x hx.1 hx.2]

theorem countLe_eq_countLeN (a : List Int) (lo hi : Nat) :
    countLe a (lo : Int) (hi : Int) = countLeN a (a.getD hi 0) lo (hi - lo) := by
  have e : ((hi : Int) - (lo : Int)).toNat = hi - lo := by omega
  unfold countLe countLeN
  rw [e, List.range'_eq_map_range, List.countP_map]
  apply List.countP_congr
  intro d _
  have e2 : (lo : Int) + (d : Int) = ((lo + d : Nat) : Int) := by push_cast; rfl
  simp only [Function.comp, e2, elemAt_nat]

theorem partitionLoop_count (h : Nat) (pvv : Int) :
    ∀ (fuel : Nat) (a : List Int) (m j : Nat),
      m ≤ j → j ≤ h → h < a.length → h - j ≤ fuel → a.getD h 0 = pvv →
      ∀ (a' : List Int) (r : Int),
        partitionLoop h h fuel a ((m : Int) - 1) j = .ok (a', r) →
        r = (m : Int) - 1 + (countLeN a pvv j (h - j) : Int) := by
  intro fuel
  induction fuel with
  | zero =>
    intro a m j hmj hjh hlen hfuel hpv a' r hrun
    have hj : j = h := by omega
    subst hj
    have g : ¬ ((j : Int) ≤ (j : Int) - 1) := by omega
    rw [partitionLoop, if_neg g] at hrun
    injection hrun with hrun
    injection hrun with _ hr
    rw [Nat.sub_self, countLeN_zero, ← hr]; simp
  | succ fuel ih =>
    intro a m j hmj hjh hlen hfuel hpv a' r hrun
    by_cases hj : j = h
    · subst hj
      have g : ¬ ((j : Int) ≤ (j : Int) - 1) := by omega
      rw [partitionLoop, if_neg g] at hrun
      injection hrun with hrun
      injection hrun with _ hr
      rw [Nat.sub_self, countLeN_zero, ← hr]; simp
    · have hguard : (j : Int) ≤ (h : Int) - 1 := by omega
      have hjlen : j < a.length := by omega
      have hmlen : m < a.length := by omega
      have hn : h - j = (h - (j + 1)) + 1 := by omega
      rw [partitionLoop, if_pos hguard, rd_ok a j hjlen, rd_ok a h hlen] at hrun
      simp only [Res.bind] at hrun
      rw [hpv] at hrun
      rw [hn, countLeN_succ]
      by_cases hle : a.getD j 0 ≤ pvv
      · rw [if_pos hle] at hrun
        have e1 : (m : Int) - 1 + 1 = (m : Int) := by omega
        rw [e1, swap_ok a m j hmlen hjlen] at hrun
        simp only [Res.bind] at hrun
        have e2 : (m : Int) = ((m + 1 : Nat) : Int) - 1 := by push_cast; omega
        have e3 : (j : Int) + 1 = ((j + 1 : Nat) : Int) := by push_cast; rfl
        rw [e2, e3] at hrun
        have hg := getD_swapN a m j
        have := ih (swapN a m j) (m + 1) (j + 1) (by omega) (by omega)
          (by rw [length_swapN]; exact hlen) (by omega)
          (by rw [hg h hmlen hjlen, if_neg (by omega), if_neg (by omega)]; exact hpv)
          a' r hrun
        rw [countLeN_congr a (swapN a m j) pvv (j + 1) (h - (j + 1))
          (fun x hx1 hx2 => by
            rw [hg x hmlen hjlen, if_neg (by omega), if_neg (by omega)])] at this
        rw [this, if_pos hle]; push_cast; omega
      · rw [if_neg hle] at hrun
        have e3 : (j : Int) + 1 = ((j + 1 : Nat) : Int) := by push_cast; rfl
        rw [e3] at hrun
        have := ih a m (j + 1) (by omega) (by omega) hlen (by omega) hpv a' r hrun
        rw [this, if_neg hle]; push_cast; omega

/-- C19: for `0 <= lo <= hi < length(a)`, the index returned by `partition(a, lo, hi)` is
`lo` plus the number of indices `j` in `[lo, hi - 1]` whose element before the call is
`<=` the element at `hi` before the call. -/
theorem partition_index_is_count (a : List Int) (lo hi : Int)
    (h0 : 0 ≤ lo) (h1 : lo ≤ hi) (h2 : hi < a.length) :
    ∃ (a' : List Int) (p : Int), partition a lo hi = .ok (a', p) ∧
      p = lo + (countLe a lo hi : Int) := by
  lift lo to Nat using h0
  lift hi to Nat using (by omega)
  obtain ⟨a1, m, hrun, hl, -, hmh, -⟩ :=
    partitionLoop_spec hi (a.getD hi 0) (hi - lo) a lo lo (le_refl _) (by omega) (by omega)
      (le_refl _) rfl (by intro x hx1 hx2; omega)
  have hcount := partitionLoop_count hi (a.getD hi 0) (hi - lo) a lo lo (le_refl _) (by omega)
    (by omega) (le_refl _) rfl a1 _ hrun
  obtain ⟨a', p, hp, -⟩ := partition_spec a lo hi (by omega) (by omega)
  have hfuel : ((hi : Int) - (lo : Int)).toNat = hi - lo := by omega
  have hp2 := hp
  rw [partition] at hp2
  simp only [hfuel, hrun, Res.bind] at hp2
  have hmlen : m < a1.length := by omega
  have e1 : (m : Int) - 1 + 1 = (m : Int) := by omega
  rw [e1, swap_ok a1 m hi hmlen (by omega)] at hp2
  injection hp2 with hp2
  injection hp2 with _ hpm
  refine ⟨a', p, hp, ?_⟩
  rw [countLe_eq_countLeN, ← hpm]
  omega

/-- Instance of the count property: three of the entries in `[1, 4]` of the array are
`<= 20`, so the call returns `4`. -/
theorem partition_index_is_count_witness :
    ((0 : Int) ≤ 1 ∧ (1 : Int) ≤ 5 ∧ (5 : Int) < ([60, 10, 30, 20, 5, 20, 70] : List Int).length) ∧
    countLe [60, 10, 30, 20, 5, 20, 70] 1 5 = 3 ∧
    partition [60, 10, 30, 20, 5, 20, 70] 1 5 = .ok ([60, 10, 20, 5, 20, 30, 70], 4) ∧
    ∃ (a' : List Int) (p : Int), partition [60, 10, 30, 20, 5, 20, 70] 1 5 = .ok (a', p) ∧
      p = 1 + (countLe [60, 10, 30, 20, 5, 20, 70] 1 5 : Int) :=
  ⟨⟨by decide, by decide, by decide⟩, by decide, by decide,
    partition_index_is_count [60, 10, 30, 20, 5, 20, 70] 1 5 (by decide) (by decide) (by decide)⟩

/-! ## The recursive original -/

theorem swapN_self (a : List Int) (i : Nat) (h : i < a.length) : swapN a i i = a := by
  apply List.ext_getElem?
  intro x
  apply getElem?_eq_of_getD a (swapN a i i) x (length_swapN a i i)
  rw [getD_swapN a i i x h h]
  by_cases hx : x = i
  · rw [if_pos hx, hx]
  · rw [if_neg hx, if_neg hx]

/-- On a one-element range `partition` changes nothing and returns the index of the range. -/
theorem partition_single (a : List Int) (lo : Nat) (h : lo < a.length) :
    partition a (lo : Int) (lo : Int) = .ok (a, (lo : Int)) := by
  have e : ((lo : Int) - (lo : Int)).toNat = 0 := by omega
  have g : ¬ ((lo : Int) ≤ (lo : Int) - 1) := by omega
  have s : (lo : Int) - 1 + 1 = (lo : Int) := by omega
  simp only [partition, e, partitionLoop, if_neg g, Res.bind, s]
  rw [swap_ok a lo lo h h, swapN_self a lo h]

/-- The recursive function agrees with "`partition`, then the loop" on every valid range,
the one-element range included. -/
theorem select0Rec_eq_loop (k : Nat) :
    ∀ (f2 f1 : Nat) (a : List Int) (lo hi : Nat),
      lo ≤ k → k ≤ hi → hi < a.length → hi - lo ≤ f1 → hi - lo ≤ f2 →
      select0Rec k f2 a lo hi =
        (partition a lo hi).bind fun r => select0Loop k f1 r.1 lo hi r.2 := by
  have single : ∀ (f2 f1 : Nat) (a : List Int) (lo hi : Nat),
      lo ≤ k → k ≤ hi → hi < a.length → lo = hi →
      select0Rec k f2 a lo hi =
        (partition a lo hi).bind fun r => select0Loop k f1 r.1 lo hi r.2 := by
    intro f2 f1 a lo hi h1 h2 h3 hlh
    subst hlh
    have hk : k = lo := by omega
    subst hk
    rw [partition_single a k h3]
    simp only [Res.bind]
    rw [select0Loop_done k f1 a k k h3]
    cases f2 <;> simp [select0Rec, rd_ok a k h3, Res.bind]
  intro f2
  induction f2 with
  | zero =>
    intro f1 a lo hi h1 h2 h3 hf1 hf2
    exact single 0 f1 a lo hi h1 h2 h3 (by omega)
  | succ f2 ih =>
    intro f1 a lo hi h1 h2 h3 hf1 hf2
    by_cases hlh : lo = hi
    · exact single (f2 + 1) f1 a lo hi h1 h2 h3 hlh
    · have hlt : ¬ ((lo : Int) ≥ (hi : Int)) := by omega
      obtain ⟨f1, rfl⟩ : ∃ g, f1 = g + 1 := ⟨f1 - 1, by omega⟩
      obtain ⟨a1, p, hrun, hl1, hp1, hp2, -⟩ := partition_spec a lo hi (by omega) h3
      rw [select0Rec, if_neg hlt, hrun]
      simp only [Res.bind]
      by_cases hp : p = k
      · subst hp
        rw [if_pos rfl, select0Loop_done p _ a1 lo hi (by omega), rd_ok a1 p (by omega)]
      · have hne : (k : Int) ≠ (p : Int) := by omega
        rw [if_neg hne, select0Loop, if_pos hne]
        by_cases hkp : k < p
        · have hlt2 : (k : Int) < (p : Int) := by omega
          have hge : ¬ ((k : Int) ≥ (p : Int)) := by omega
          have e : (p : Int) - 1 = ((p - 1 : Nat) : Int) := by omega
          simp only [if_pos hlt2, if_neg hge]
          rw [e]
          exact ih f1 a1 lo (p - 1) h1 (by omega) (by omega) (by omega) (by omega)
        · have hlt2 : ¬ ((k : Int) < (p : Int)) := by omega
          have hge : (k : Int) ≥ (p : Int) := by omega
          have e : (p : Int) + 1 = ((p + 1 : Nat) : Int) := by push_cast; rfl
          simp only [if_neg hlt2, if_pos hge]
          rw [e]
          exact ih f1 a1 (p + 1) hi (by omega) h2 (by omega) (by omega) (by omega)

/-- C15: for `0 <= lo <= k <= hi < length(a)`, the iterative `select0` returns the same
value and leaves the array in the same final state as the original tail-recursive
`select0` kept in the source comment. -/
theorem select0_refines_recursive (f1 f2 : Nat) (a : List Int) (lo hi k : Int)
    (h0 : 0 ≤ lo) (h1 : lo ≤ k) (h2 : k ≤ hi) (h3 : hi < a.length)
    (hf1 : (hi - lo).toNat ≤ f1) (hf2 : (hi - lo).toNat ≤ f2) :
    ∃ (v : Int) (a' : List Int),
      select0 f1 a lo hi k = .ok (v, a') ∧ select0Rec k f2 a lo hi = .ok (v, a') := by
  lift lo to Nat using h0
  lift k to Nat using (by omega)
  lift hi to Nat using (by omega)
  obtain ⟨a', hrun, -⟩ :=
    select0_spec f1 a lo hi k (by omega) (by omega) (by omega) (by omega)
  refine ⟨a'.getD k 0, a', hrun, ?_⟩
  rw [select0Rec_eq_loop k f2 f1 a lo hi (by omega) (by omega) (by omega) (by omega) (by omega)]
  by_cases hlh : lo = hi
  · subst hlh
    have hk : k = lo := by omega
    subst hk
    rw [select0, if_pos (le_refl _), rd_ok a k (by omega)] at hrun
    rw [partition_single a k (by omega)]
    simp only [Res.bind] at hrun ⊢
    rw [select0Loop_done k f1 a k k (by omega)]
    exact hrun
  · have hlt : ¬ ((lo : Int) ≥ (hi : Int)) := by omega
    rw [select0, if_neg hlt] at hrun
    exact hrun

/-- Instance of the agreement of the two versions on the array of the test `array7`. -/
theorem select0_refines_recursive_witness :
    ((0 : Int) ≤ 0 ∧ (0 : Int) ≤ 3 ∧ (3 : Int) ≤ 6 ∧
      (6 : Int) < ([60, 40, 30, 10, 50, 20, 70] : List Int).length ∧
      ((6 : Int) - 0).toNat ≤ 6 ∧ ((6 : Int) - 0).toNat ≤ 7) ∧
    select0Rec 3 7 [60, 40, 30, 10, 50, 20, 70] 0 6 = .ok (40, [10, 20, 30, 40, 50, 60, 70]) ∧
    ∃ (v : Int) (a' : List Int),
      select0 6 [60, 40, 30, 10, 50, 20, 70] 0 6 3 = .ok (v, a') ∧
      select0Rec 3 7 [60, 40, 30, 10, 50, 20, 70] 0 6 = .ok (v, a') :=
  ⟨⟨by decide, by decide, by decide, by decide, by decide, by decide⟩, by decide,
    select0_refines_recursive 6 7 [60, 40, 30, 10, 50, 20, 70] 0 6 3
      (by decide) (by decide) (by decide) (by decide) (by decide) (by decide)⟩

/-! ## The indices that are accessed -/

theorem partitionLoopAccesses_bounds (h : Nat) :
    ∀ (fuel : Nat) (a : List Int) (m j : Nat),
      m ≤ j → j ≤ h → h < a.length →
      ∀ x ∈ partitionLoopAccesses h h fuel a ((m : Int) - 1) j, (m : Int) ≤ x ∧ x ≤ (h : Int) := by
  intro fuel
  induction fuel with
  | zero =>
    intro a m j _ _ _ x hx
    simp [partitionLoopAccesses] at hx
  | succ fuel ih =>
    intro a m j hmj hjh hlen x hx
    rw [partitionLoopAccesses] at hx
    by_cases hguard : (j : Int) ≤ (h : Int) - 1
    · have hjlen : j < a.length := by omega
      have hmlen : m < a.length := by omega
      rw [if_pos hguard, rd_ok a j hjlen, rd_ok a h hlen] at hx
      simp only [] at hx
      rcases List.mem_cons.mp hx with hx | hx
      · omega
      rcases List.mem_cons.mp hx with hx | hx
      · omega
      by_cases hle : a.getD j 0 ≤ a.getD h 0
      · rw [if_pos hle] at hx
        have e1 : (m : Int) - 1 + 1 = (m : Int) := by omega
        rw [e1, swap_ok a m j hmlen hjlen] at hx
        simp only [] at hx
        rcases List.mem_append.mp hx with hx | hx
        · simp only [swapAccesses, List.mem_cons, List.mem_singleton, List.not_mem_nil,
            or_false] at hx
          omega
        · have e2 : (m : Int) = ((m + 1 : Nat) : Int) - 1 := by push_cast; omega
          have e3 : (j : Int) + 1 = ((j + 1 : Nat) : Int) := by push_cast; rfl
          rw [e2, e3] at hx
          have := ih (swapN a m j) (m + 1) (j + 1) (by omega) (by omega)
            (by rw [length_swapN]; exact hlen) x hx
          omega
      · rw [if_neg hle] at hx
        have e3 : (j : Int) + 1 = ((j + 1 : Nat) : Int) := by push_cast; rfl
        rw [e3] at hx
        exact ih a m (j + 1) (by omega) (by omega) hlen x hx
    · rw [if_neg hguard] at hx
      cases hx

theorem partitionAccesses_bounds (a : List Int) (lo hi : Nat) (h1 : lo ≤ hi)
    (h2 : hi < a.length) :
    ∀ x ∈ partitionAccesses a lo hi, (lo : Int) ≤ x ∧ x ≤ (hi : Int) := by
  intro x hx
  rw [partitionAccesses] at hx
  have hfuel : ((hi : Int) - (lo : Int)).toNat = hi - lo := by omega
  obtain ⟨a1, m, hrun, hl, hm, hmh, -⟩ :=
    partitionLoop_spec hi (a.getD hi 0) (hi - lo) a lo lo (le_refl _) h1 h2 (le_refl _) rfl
      (by intro x hx1 hx2; omega)
  rw [hfuel, hrun] at hx
  simp only [] at hx
  rcases List.mem_append.mp hx with hx | hx
  · exact partitionLoopAccesses_bounds hi (hi - lo) a lo lo (le_refl _) h1 h2 x hx
  · simp only [swapAccesses, List.mem_cons, List.mem_singleton, List.not_mem_nil,
      or_false] at hx
    omega

/-- C16: for `0 <= lo <= k <= hi < length(a)`, `select0(a, lo, hi, k)` returns a result (no
access fails), and every array index that it reads or writes, the accesses of every
`partition` and `swap` included, lies within `[lo, hi]` and hence within the array. -/
theorem select0_accesses_in_range (fuel : Nat) (a : List Int) (lo hi k : Int)
    (h0 : 0 ≤ lo) (h1 : lo ≤ k) (h2 : k ≤ hi) (h3 : hi < a.length)
    (hf : (hi - lo).toNat ≤ fuel) :
    (∃ (v : Int) (a' : List Int), select0 fuel a lo hi k = .ok (v, a')) ∧
      ∀ x ∈ select0Accesses fuel a lo hi k, (lo ≤ x ∧ x ≤ hi) ∧ (0 ≤ x ∧ x < a.length) := by
  lift lo to Nat using h0
  lift k to Nat using (by omega)
  lift hi to Nat using (by omega)
  obtain ⟨a', hrun, -⟩ :=
    select0_spec fuel a lo hi k (by omega) (by omega) (by omega) (by omega)
  refine ⟨⟨_, a', hrun⟩, ?_⟩
  have key : ∀ x ∈ select0Accesses fuel a lo hi k, (lo : Int) ≤ x ∧ x ≤ (hi : Int) := by
    intro x hx
    rw [select0Accesses] at hx
    by_cases hlh : (lo : Int) ≥ (hi : Int)
    · rw [if_pos hlh] at hx
      rw [List.mem_singleton] at hx
      omega
    · rw [if_neg hlh] at hx
      rcases List.mem_append.mp hx with hx | hx
      · obtain ⟨l, hl, hxl⟩ := List.mem_flatten.mp hx
        obtain ⟨c, hc, rfl⟩ := List.mem_map.mp hl
        obtain ⟨c1, c2, c3, c4, c5⟩ :=
          select0Calls_bounds fuel a lo hi k (by omega) (by omega) (by omega) c hc
        obtain ⟨b, clo, chi⟩ := c
        simp only [] at c1 c2 c3 c4 c5 hxl
        lift clo to Nat using (by omega)
        lift chi to Nat using (by omega)
        have := partitionAccesses_bounds b clo chi (by omega) (by omega) x hxl
        omega
      · rw [List.mem_singleton] at hx
        omega
  intro x hx
  have := key x hx
  exact ⟨this, by omega, by omega⟩

/-- Instance of the access bound on the range `[1, 5]` of a seven-element array with rank
`3`, together with the list of accessed indices. -/
theorem select0_accesses_in_range_witness :
    ((0 : Int) ≤ 1 ∧ (1 : Int) ≤ 3 ∧ (3 : Int) ≤ 5 ∧
      (5 : Int) < ([60, 40, 30, 10, 50, 20, 70] : List Int).length ∧
      ((5 : Int) - 1).toNat ≤ 4) ∧
    partitionAccesses [60, 40, 30, 10, 50, 20, 70] 1 5 =
      [1, 5, 2, 5, 3, 5, 1, 3, 1, 3, 4, 5, 2, 5, 2, 5] ∧
    ((∃ (v : Int) (a' : List Int),
        select0 4 [60, 40, 30, 10, 50, 20, 70] 1 5 3 = .ok (v, a')) ∧
      ∀ x ∈ select0Accesses 4 [60, 40, 30, 10, 50, 20, 70] 1 5 3,
        ((1 : Int) ≤ x ∧ x ≤ 5) ∧
          (0 ≤ x ∧ x < (([60, 40, 30, 10, 50, 20, 70] : List Int).length : Int))) :=
  ⟨⟨by decide, by decide, by decide, by decide, by decide⟩, by decide,
    select0_accesses_in_range 4 [60, 40, 30, 10, 50, 20, 70] 1 5 3
      (by decide) (by decide) (by decide) (by decide) (by decide)⟩

/-! ## Instability -/

/-- C18: `partition` is not stable: in `partition([3,4,5,1,2], 0, 4)` the pivot is `2`, the
elements `3` and `5` are both greater than the pivot, `3` stands before `5` before the call
(indices `0` and `2`) and after `5` afterwards (indices `3` and `2`). -/
theorem partition_not_stable :
    partition [3, 4, 5, 1, 2] 0 4 = .ok ([1, 2, 5, 3, 4], 1) ∧
    ∃ (a a' : List Int) (lo hi p i j i2 j2 : Int),
      0 ≤ lo ∧ lo ≤ hi ∧ hi < a.length ∧ a.Nodup ∧ partition a lo hi = .ok (a', p) ∧
      lo ≤ i ∧ i < j ∧ j ≤ hi ∧ elemAt a hi < elemAt a i ∧ elemAt a hi < elemAt a j ∧
      lo ≤ j2 ∧ j2 < i2 ∧ i2 ≤ hi ∧ elemAt a' i2 = elemAt a i ∧ elemAt a' j2 = elemAt a j :=
  ⟨by decide, [3, 4, 5, 1, 2], [1, 2, 5, 3, 4], 0, 4, 1, 0, 2, 3, 2, by decide⟩

/-! ## Strictly descending input -/

theorem partitionLoop_all_greater (h : Nat) :
    ∀ (fuel : Nat) (a : List Int) (i : Int) (j : Nat),
      j ≤ h → h < a.length → h - j ≤ fuel →
      (∀ x, j ≤ x → x < h → a.getD h 0 < a.getD x 0) →
      partitionLoop h h fuel a i j = .ok (a, i) := by
  intro fuel
  induction fuel with
  | zero =>
    intro a i j hjh hlen hfuel hgt
    have g : ¬ ((j : Int) ≤ (h : Int) - 1) := by omega
    rw [partitionLoop, if_neg g]
  | succ fuel ih =>
    intro a i j hjh hlen hfuel hgt
    by_cases hguard : (j : Int) ≤ (h : Int) - 1
    · have hjlen : j < a.length := by omega
      have hnle : ¬ (a.getD j 0 ≤ a.getD h 0) := not_le.mpr (hgt j (le_refl _) (by omega))
      have e3 : (j : Int) + 1 = ((j + 1 : Nat) : Int) := by push_cast; rfl
      rw [partitionLoop, if_pos hguard, rd_ok a j hjlen, rd_ok a h hlen]
      simp only [Res.bind]
      rw [if_neg hnle, e3]
      exact ih a i (j + 1) (by omega) hlen (by omega) (fun x hx1 hx2 => hgt x (by omega) hx2)
    · rw [partitionLoop, if_neg hguard]

theorem partitionLoop_all_le (h : Nat) :
    ∀ (fuel : Nat) (a : List Int) (j : Nat),
      j ≤ h → h < a.length → h - j ≤ fuel →
      (∀ x, j ≤ x → x < h → a.getD x 0 ≤ a.getD h 0) →
      partitionLoop h h fuel a ((j : Int) - 1) j = .ok (a, (h : Int) - 1) := by
  intro fuel
  induction fuel with
  | zero =>
    intro a j hjh hlen hfuel hle
    have hj : j = h := by omega
    subst hj
    have g : ¬ ((j : Int) ≤ (j : Int) - 1) := by omega
    rw [partitionLoop, if_neg g]
  | succ fuel ih =>
    intro a j hjh hlen hfuel hle
    by_cases hguard : (j : Int) ≤ (h : Int) - 1
    · have hjlen : j < a.length := by omega
      have e1 : (j : Int) - 1 + 1 = (j : Int) := by omega
      have e3 : (j : Int) + 1 = ((j + 1 : Nat) : Int) := by push_cast; rfl
      have e4 : (j : Int) = ((j + 1 : Nat) : Int) - 1 := by push_cast; omega
      rw [partitionLoop, if_pos hguard, rd_ok a j hjlen, rd_ok a h hlen]
      simp only [Res.bind]
      rw [if_pos (hle j (le_refl _) (by omega)), e1, swap_ok a j j hjlen hjlen,
        swapN_self a j hjlen]
      simp only [Res.bind]
      rw [e3]
      nth_rewrite 1 [e4]
      exact ih a (j + 1) (by omega) hlen (by omega) (fun x hx1 hx2 => hle x (by omega) hx2)
    · have hj : j = h := by omega
      subst hj
      rw [partitionLoop, if_neg hguard]

/-- When the pivot is smaller than every other entry of the range, `partition` exchanges
the two ends of the range and returns `lo`. -/
theorem partition_of_min (a : List Int) (lo hi : Nat) (h1 : lo ≤ hi) (h2 : hi < a.length)
    (hgt : ∀ x, lo ≤ x → x < hi → a.getD hi 0 < a.getD x 0) :
    partition a lo hi = .ok (swapN a lo hi, (lo : Int)) := by
  have e1 : (lo : Int) - 1 + 1 = (lo : Int) := by omega
  rw [partition]
  rw [partitionLoop_all_greater hi _ a _ lo h1 h2 (by omega) hgt]
  simp only [Res.bind]
  rw [e1, swap_ok a lo hi (by omega) h2]

/-- When the pivot is at least as large as every other entry of the range, `partition`
leaves the array as it is and returns `hi`. -/
theorem partition_of_max (a : List Int) (lo hi : Nat) (h1 : lo ≤ hi) (h2 : hi < a.length)
    (hle : ∀ x, lo ≤ x → x < hi → a.getD x 0 ≤ a.getD hi 0) :
    partition a lo hi = .ok (a, (hi : Int)) := by
  have e1 : (hi : Int) - 1 + 1 = (hi : Int) := by omega
  rw [partition]
  rw [partitionLoop_all_le hi _ a lo h1 h2 (by omega) hle]
  simp only [Res.bind]
  rw [e1, swap_ok a hi hi h2 h2, swapN_self a hi h2]

theorem pivotIsMin_of (b : List Int) (lo hi : Nat)
    (h : ∀ z, lo ≤ z → z ≤ hi → b.getD hi 0 ≤ b.getD z 0) :
    PivotIsMin (b, (lo : Int), (hi : Int)) := by
  intro x hx
  simp only [] at hx ⊢
  rw [segment_eq_segN, mem_segN] at hx
  obtain ⟨z, hz1, hz2, hz⟩ := hx
  have := h z hz1 hz2
  rw [elemAt_nat]
  simpa [List.getD_eq_getElem?_getD, hz] using this

theorem pivotIsMax_of (b : List Int) (lo hi : Nat)
    (h : ∀ z, lo ≤ z → z ≤ hi → b.getD z 0 ≤ b.getD hi 0) :
    PivotIsMax (b, (lo : Int), (hi : Int)) := by
  intro x hx
  simp only [] at hx ⊢
  rw [segment_eq_segN, mem_segN] at hx
  obtain ⟨z, hz1, hz2, hz⟩ := hx
  have := h z hz1 hz2
  rw [elemAt_nat]
  simpa [List.getD_eq_getElem?_getD, hz] using this

theorem select0LoopCalls_alternate (k : Nat) :
    ∀ (fuel : Nat) (b : List Int) (lo hi p : Nat),
      lo ≤ k → k ≤ hi → hi < b.length →
      (p = lo → DescOpen b (lo + 1) hi → (∀ x, lo + 1 ≤ x → x < hi → b.getD x 0 < b.getD hi 0) →
        PivotsAlternate false (select0LoopCalls k fuel b lo hi p)) ∧
      (p = hi → DescOpen b lo hi →
        PivotsAlternate true (select0LoopCalls k fuel b lo hi p)) := by
  intro fuel
  induction fuel with
  | zero =>
    intro b lo hi p _ _ _
    constructor
    · intro _ _ _; rw [select0LoopCalls]; trivial
    · intro _ _; rw [select0LoopCalls]; trivial
  | succ fuel ih =>
    intro b lo hi p h1 h2 h3
    constructor
    · intro hp hdesc hmax
      subst hp
      rw [select0LoopCalls]
      by_cases hpk : p = k
      · subst hpk; rw [if_neg (by simp)]; trivial
      · have hne : (k : Int) ≠ (p : Int) := by omega
        have hge : (k : Int) ≥ (p : Int) := by omega
        have e : (p : Int) + 1 = ((p + 1 : Nat) : Int) := by push_cast; rfl
        rw [if_pos hne]
        simp only [if_pos hge]
        rw [e, partition_of_max b (p + 1) hi (by omega) h3
          (fun x hx1 hx2 => le_of_lt (hmax x hx1 hx2))]
        refine ⟨pivotIsMax_of b (p + 1) hi ?_, ?_⟩
        · intro z hz1 hz2
          by_cases hz : z = hi
          · rw [hz]
          · exact le_of_lt (hmax z hz1 (by omega))
        · exact (ih b (p + 1) hi hi (by omega) h2 h3).2 rfl hdesc
    · intro hp hdesc
      subst hp
      rw [select0LoopCalls]
      by_cases hpk : p = k
      · subst hpk; rw [if_neg (by simp)]; trivial
      · have hne : (k : Int) ≠ (p : Int) := by omega
        have hge : ¬ ((k : Int) ≥ (p : Int)) := by omega
        have e : (p : Int) - 1 = ((p - 1 : Nat) : Int) := by omega
        have hgt : ∀ x, lo ≤ x → x < p - 1 → b.getD (p - 1) 0 < b.getD x 0 :=
          fun x hx1 hx2 => hdesc x (p - 1) hx1 hx2 (by omega)
        have hg := getD_swapN b lo (p - 1)
        rw [if_pos hne]
        simp only [if_neg hge]
        rw [e, partition_of_min b lo (p - 1) (by omega) (by omega) hgt]
        refine ⟨pivotIsMin_of b lo (p - 1) ?_, ?_⟩
        · intro z hz1 hz2
          by_cases hz : z = p - 1
          · rw [hz]
          · exact le_of_lt (hgt z hz1 (by omega))
        · refine (ih (swapN b lo (p - 1)) lo (p - 1) lo h1 (by omega)
            (by rw [length_swapN]; omega)).1 rfl ?_ ?_
          · intro x y hx hxy hy
            rw [hg x (by omega) (by omega), hg y (by omega) (by omega),
              if_neg (by omega), if_neg (by omega), if_neg (by omega), if_neg (by omega)]
            exact hdesc x y (by omega) hxy (by omega)
          · intro x hx1 hx2
            rw [hg x (by omega) (by omega), hg (p - 1) (by omega) (by omega),
              if_neg (by omega), if_neg (by omega), if_pos rfl]
            exact hdesc lo x (le_refl _) (by omega) (by omega)

theorem descOpen_of_sorted (a : List Int) (h : a.Sorted (· > ·)) : DescOpen a 0 a.length := by
  intro x y _ hxy hy
  have hx : x < a.length := by omega
  have := List.pairwise_iff_getElem.mp h x y hx hy hxy
  simpa [List.getD_eq_getElem?_getD, List.getElem?_eq_getElem hx,
    List.getElem?_eq_getElem hy] using this

/-- C17 (counterexample): on the strictly descending array of the test `array9` with rank
`8`, the second call of `partition` is made on the range `[1, 8]` of
`[10,80,70,60,50,40,30,20,90]`; its pivot is `90`, while the range contains `20`. -/
theorem descending_pivot_not_always_minimum :
    List.Sorted (· > ·) ([90, 80, 70, 60, 50, 40, 30, 20, 10] : List Int) ∧
    selecttCalls 8 [90, 80, 70, 60, 50, 40, 30, 20, 10] 9 8 =
      [([90, 80, 70, 60, 50, 40, 30, 20, 10], 0, 8),
        ([10, 80, 70, 60, 50, 40, 30, 20, 90], 1, 8)] ∧
    ¬ (∀ c ∈ selecttCalls 8 [90, 80, 70, 60, 50, 40, 30, 20, 10] 9 8, PivotIsMin c) := by
  refine ⟨by decide, by decide, ?_⟩
  intro h
  have h2 := h ([10, 80, 70, 60, 50, 40, 30, 20, 90], 1, 8) (by decide) 20 (by decide)
  revert h2
  decide

/-- C17 (amended): for a strictly descending array `a` of length `n` and a rank
`0 <= k < n`, the pivots of the `partition` calls made during `selectt(a, n, k)` are
alternately the minimum and the maximum of the current range, starting with the minimum
at the first call. -/
theorem descending_pivots_alternate (fuel : Nat) (a : List Int) (n k : Int)
    (hdesc : a.Sorted (· > ·)) (hn : n = a.length) (h0 : 0 ≤ k) (hk : k < n) :
    PivotsAlternate true (selecttCalls fuel a n k) := by
  subst hn
  lift k to Nat using h0
  have hd := descOpen_of_sorted a hdesc
  rw [selecttCalls, select0Calls]
  by_cases hlh : (0 : Int) ≥ (a.length : Int) - 1
  · rw [if_pos hlh]; trivial
  · have e : (a.length : Int) - 1 = ((a.length - 1 : Nat) : Int) := by omega
    have hgt : ∀ x, 0 ≤ x → x < a.length - 1 → a.getD (a.length - 1) 0 < a.getD x 0 :=
      fun x hx1 hx2 => hd x (a.length - 1) hx1 hx2 (by omega)
    have hg := getD_swapN a 0 (a.length - 1)
    have hpart := partition_of_min a 0 (a.length - 1) (by omega) (by omega) hgt
    rw [Nat.cast_zero] at hpart
    rw [if_neg hlh, e, hpart]
    refine ⟨pivotIsMin_of a 0 (a.length - 1) ?_, ?_⟩
    · intro z hz1 hz2
      by_cases hz : z = a.length - 1
      · rw [hz]
      · exact le_of_lt (hgt z hz1 (by omega))
    · refine (select0LoopCalls_alternate k fuel (swapN a 0 (a.length - 1)) 0 (a.length - 1) 0
        (by omega) (by omega) (by rw [length_swapN]; omega)).1 rfl ?_ ?_
      · intro x y hx hxy hy
        rw [hg x (by omega) (by omega), hg y (by omega) (by omega),
          if_neg (by omega), if_neg (by omega), if_neg (by omega), if_neg (by omega)]
        exact hd x y (by omega) hxy (by omega)
      · intro x hx1 hx2
        rw [hg x (by omega) (by omega), hg (a.length - 1) (by omega) (by omega),
          if_neg (by omega), if_neg (by omega), if_pos rfl]
        exact hd 0 x (le_refl _) (by omega) (by omega)

/-- Instance of the alternation on the strictly descending array of the test `array9`, with
rank `4`: nine calls, on ranges that lose one end at a time. -/
theorem descending_pivots_alternate_witness :
    (List.Sorted (· > ·) ([90, 80, 70, 60, 50, 40, 30, 20, 10] : List Int) ∧
      (9 : Int) = ([90, 80, 70, 60, 50, 40, 30, 20, 10] : List Int).length ∧
      (0 : Int) ≤ 4 ∧ (4 : Int) < 9) ∧
    (selecttCalls 8 [90, 80, 70, 60, 50, 40, 30, 20, 10] 9 4).map (fun c => c.2) =
      [(0, 8), (1, 8), (1, 7), (2, 7), (2, 6), (3, 6), (3, 5), (4, 5), (4, 4)] ∧
    PivotsAlternate true (selecttCalls 8 [90, 80, 70, 60, 50, 40, 30, 20, 10] 9 4) :=
  ⟨⟨by decide, by decide, by decide, by decide⟩, by decide,
    descending_pivots_alternate 8 [90, 80, 70, 60, 50, 40, 30, 20, 10] 9 4
      (by decide) (by decide) (by decide) (by decide)⟩

end Select
